import Mathlib

/-!
# ListTokenSource (runtime/Go/antlr/token_source.go)

A shallow embedding of the Go type `ListTokenSource` and its methods, followed
by theorems about it.

Modelling conventions.

* Go `int` is the 64-bit two's-complement integer of a 64-bit target.  Its
  values are `Int`s in `-2^63 .. 2^63-1`, and every `+` and `-` of the source on
  token positions is followed by the reduction `wrapInt` to that range.  The
  increment `idx++` needs none: it runs only when `idx < len(tokens)`.
* A method whose Go body indexes a slice returns `Result`: `Result.panic` is
  the run-time panic "index out of range".
* A Go value of interface type `Token` that may be nil (the field `eof`, the
  result of `NextToken`) is an `Option Token`; `none` is nil.  The elements of
  the token list and the result of `Create` are tokens, never nil, as in the
  specification.
* Methods with a pointer receiver take the struct value and return the new
  struct value (explicit state passing).
* Go strings are `String`; `len` of a string is its UTF-8 byte length.
-/

namespace Antlr

/-- The outcome of a Go call: a value, or a run-time panic. -/
inductive Result (α : Type) where
  | ok (v : α)
  | panic
  deriving DecidableEq, Repr

namespace Result

/-- Sequencing: a panic aborts the rest of the body. -/
def bind {α β : Type} (r : Result α) (f : α → Result β) : Result β :=
  match r with
  | ok v => f v
  | panic => panic

/-- Apply a total function to the value of a call. -/
def map {α β : Type} (f : α → β) (r : Result α) : Result β :=
  match r with
  | ok v => ok (f v)
  | panic => panic

end Result

/-- Modelled from the spec: the opaque character-stream reference (`CharStream`,
declared outside token_source.go).  It is nullable; a non-nil stream is known
only by its identity. -/
inductive CharStream where
  | nil
  | stream (id : Nat)
  deriving DecidableEq, Repr

/-- The value of a `*ListTokenSource` pointer (the identity of a source). -/
abbrev SourceRef := Nat

/-- Modelled from the spec: `Token` (declared outside token_source.go), a
lexical unit with a type tag, channel, text, inclusive start/stop offsets
(`-1` is "unknown"), line, column and the stream it was read from.  The field
`ref` is the identity of the token object, so that equality of two `Token`
values is equality of instances; `source` is the back-reference to the token
source the token came from (if any). -/
structure Token where
  ref : Nat
  tokenType : Int
  channel : Int
  text : String
  start : Int
  stop : Int
  line : Int
  column : Int
  source : Option SourceRef
  stream : CharStream
  deriving DecidableEq, Repr

namespace Token

def GetTokenType (t : Token) : Int := t.tokenType
def GetText (t : Token) : String := t.text
def GetStart (t : Token) : Int := t.start
def GetStop (t : Token) : Int := t.stop
def GetLine (t : Token) : Int := t.line
def GetColumn (t : Token) : Int := t.column
def GetInputStream (t : Token) : CharStream := t.stream

end Token

/-- Go: `TokenSourceCharStreamPair{tokenSource, charStream}`. -/
structure TokenSourceCharStreamPair where
  tokenSource : SourceRef
  charStream : CharStream
  deriving DecidableEq, Repr

/-- Modelled from the spec: the token-construction strategy
`Create(sourcePair, typeTag, text, channel, start, stop, line, column) → Token`
(interface `TokenFactory`, declared outside token_source.go). -/
structure TokenFactory where
  Create : TokenSourceCharStreamPair → Int → String → Int → Int → Int → Int → Int → Token

/-- Package-level declarations that token_source.go uses and that are declared
in other files of the package: they are parameters of the development. -/
structure Package where
  TokenEOF : Int
  TokenDefaultChannel : Int
  CommonTokenFactoryDEFAULT : TokenFactory

/-- One invocation of `Factory.Create`: the factory it was invoked on and the
arguments it received. -/
structure CreateCall where
  factory : TokenFactory
  pair : TokenSourceCharStreamPair
  ttype : Int
  text : String
  channel : Int
  start : Int
  stop : Int
  line : Int
  column : Int

/-- Go: `type ListTokenSource struct { tokens; eof; idx; Name; Factory }`.
The last two fields are not fields of the Go struct: `self` is the address of
the struct (the value of the receiver `s`), and `created` records, in order,
the calls of `Factory.Create` made so far. -/
structure ListTokenSource where
  tokens : List Token
  eof : Option Token
  idx : Int
  Name : String
  Factory : TokenFactory
  self : SourceRef
  created : List CreateCall

/-- Go: the value of an `int` expression whose exact result is `x`: the
representative of `x` modulo `2^64` in `-2^63 .. 2^63-1`. -/
def wrapInt (x : Int) : Int :=
  (x + 9223372036854775808) % 18446744073709551616 - 9223372036854775808

/-- Go: `a + b` on `int`. -/
def goAdd (a b : Int) : Int := wrapInt (a + b)

/-- Go: `a - b` on `int`. -/
def goSub (a b : Int) : Int := wrapInt (a - b)

/-- Go: `math.MaxInt64`. -/
def maxInt64 : Int := 9223372036854775807

/-- Go: `math.MinInt64`. -/
def minInt64 : Int := -9223372036854775808

/-- Go: `len(xs)` for a slice. -/
def len (ts : List Token) : Int := (ts.length : Int)

/-- Go: `xs[i]` for a slice; it panics when `i` is out of range. -/
def index (ts : List Token) (i : Int) : Result Token :=
  if i < 0 then Result.panic
  else
    match ts[i.toNat]? with
    | some t => Result.ok t
    | none => Result.panic

namespace strings

/-- Go: `strings.Count(s, string(c))` for a one-byte separator `c`: the number
of occurrences of `c` in `s`. -/
def Count (s : String) (c : Char) : Int := (s.data.count c : Nat)

/-- Scan of `strings.LastIndex`: `pos` is the byte offset of the next
character, `acc` the offset of the last occurrence seen so far. -/
def lastIndexFrom (c : Char) : List Char → Nat → Int → Int
  | [], _, acc => acc
  | x :: xs, pos, acc =>
    lastIndexFrom c xs (pos + x.utf8Size) (if x = c then (pos : Int) else acc)

/-- Go: `strings.LastIndex(s, string(c))` for a one-byte separator `c`: the
byte offset of the last occurrence of `c` in `s`, or `-1`. -/
def LastIndex (s : String) (c : Char) : Int := lastIndexFrom c s.data 0 (-1)

/-- Go: `len(s)` for a string (its number of bytes). -/
def len (s : String) : Int := (s.utf8ByteSize : Nat)

end strings

namespace ListTokenSource

/-- Go: `func NewListTokenSource(tokens []Token, name string) *ListTokenSource`.
`addr` is the address of the allocated struct. -/
def NewListTokenSource (pkg : Package) (addr : SourceRef) (tokens : List Token)
    (name : String) : ListTokenSource :=
  { tokens := tokens
    eof := none
    idx := 0
    Name := name
    Factory := pkg.CommonTokenFactoryDEFAULT
    self := addr
    created := [] }

/-- Go: `func (s *ListTokenSource) GetInputStream() CharStream`. -/
def GetInputStream (s : ListTokenSource) : Result CharStream :=
  if s.idx < len s.tokens then
    (index s.tokens s.idx).map Token.GetInputStream
  else
    match s.eof with
    | some e => Result.ok e.GetInputStream
    | none =>
      if len s.tokens > 0 then
        (index s.tokens (len s.tokens - 1)).map Token.GetInputStream
      else
        Result.ok CharStream.nil

/-- Go: `func (s *ListTokenSource) GetLine() int`. -/
def GetLine (s : ListTokenSource) : Result Int :=
  if s.idx < len s.tokens then
    (index s.tokens s.idx).map Token.GetLine
  else
    match s.eof with
    | some e => Result.ok e.GetLine
    | none =>
      if len s.tokens = 0 then
        Result.ok (-1)
      else
        (index s.tokens (len s.tokens - 1)).map fun last =>
          let numLines := goAdd last.GetLine (strings.Count last.GetText '\n')
          numLines

/-- Go: `func (s *ListTokenSource) GetCharPositionInLine() int`. -/
def GetCharPositionInLine (s : ListTokenSource) : Result Int :=
  if s.idx < len s.tokens then
    (index s.tokens s.idx).map Token.GetColumn
  else
    match s.eof with
    | some e => Result.ok e.GetColumn
    | none =>
      if len s.tokens = 0 then
        Result.ok 0
      else
        (index s.tokens (len s.tokens - 1)).map fun last =>
          let text := last.GetText
          let lastNewLine := strings.LastIndex text '\n'
          if lastNewLine = -1 then
            goSub (goSub (strings.len text) lastNewLine) 1
          else
            goAdd (goSub (goAdd last.GetColumn last.GetStop) last.GetStart) 1

/-- The value of the local `start` of `makeEOFToken` when line 52 is reached
(lines 42-50 of the Go source). -/
def eofStart (s : ListTokenSource) : Result Int :=
  if len s.tokens > 0 then
    (index s.tokens (len s.tokens - 1)).map fun last =>
      let prevStop := last.GetStop
      if prevStop ≠ -1 then goAdd prevStop 1 else -1
  else
    Result.ok (-1)

/-- The value of the local `stop` of `makeEOFToken` after lines 52-54 of the Go
source, given the value of `start`. -/
def eofStop (start : Int) : Int :=
  if start > -1 then goSub start 1 else -1

/-- Go: `func (s *ListTokenSource) makeEOFToken()`. -/
def makeEOFToken (pkg : Package) (s : ListTokenSource) : Result ListTokenSource :=
  match s.eof with
  | some _ => Result.ok s
  | none =>
    (eofStart s).bind fun start =>
    let stop := eofStop start
    (GetInputStream s).bind fun stream =>
    let pair : TokenSourceCharStreamPair := ⟨s.self, stream⟩
    (GetLine s).bind fun line =>
    (GetCharPositionInLine s).bind fun column =>
    let e := s.Factory.Create pair pkg.TokenEOF "EOF" pkg.TokenDefaultChannel
      start stop line column
    Result.ok { s with
      eof := some e
      created := s.created ++
        [⟨s.Factory, pair, pkg.TokenEOF, "EOF", pkg.TokenDefaultChannel,
          start, stop, line, column⟩] }

/-- Go: `func (s *ListTokenSource) NextToken() Token`.  The result is the
returned (nullable) token and the state after the call. -/
def NextToken (pkg : Package) (s : ListTokenSource) :
    Result (Option Token × ListTokenSource) :=
  if s.idx ≥ len s.tokens then
    (makeEOFToken pkg s).bind fun s1 =>
    Result.ok (s1.eof, s1)
  else
    (index s.tokens s.idx).bind fun t =>
    let s1 := if s.idx = len s.tokens ∧ t.GetTokenType = pkg.TokenEOF
      then { s with eof := some t } else s
    Result.ok (some t, { s1 with idx := s1.idx + 1 })

/-- Go: `func (s *ListTokenSource) Skip() {}`. -/
def Skip (s : ListTokenSource) : ListTokenSource := s

/-- Go: `func (s *ListTokenSource) More() {}`. -/
def More (s : ListTokenSource) : ListTokenSource := s

/-- Go: `func (s *ListTokenSource) GetSourceName() string`. -/
def GetSourceName (s : ListTokenSource) : String := s.Name

/-- Go: `func (s *ListTokenSource) setTokenFactory(f TokenFactory)`. -/
def setTokenFactory (s : ListTokenSource) (f : TokenFactory) : ListTokenSource :=
  { s with Factory := f }

/-- Go: `func (s *ListTokenSource) GetTokenFactory() TokenFactory`. -/
def GetTokenFactory (s : ListTokenSource) : TokenFactory := s.Factory

end ListTokenSource

/-! ## Sequences of method calls -/

/-- The methods of the `TokenSource` interface, as calls with their arguments. -/
inductive Op where
  | NextToken
  | Skip
  | More
  | GetLine
  | GetCharPositionInLine
  | GetInputStream
  | GetSourceName
  | setTokenFactory (f : TokenFactory)
  | GetTokenFactory

/-- The value a method call returns. -/
inductive Ret where
  | token (t : Option Token)
  | unit
  | int (i : Int)
  | stream (c : CharStream)
  | string (str : String)
  | factory (f : TokenFactory)

open ListTokenSource

/-- One method call on a source: the returned value and the state after it. -/
def call (pkg : Package) (s : ListTokenSource) : Op → Result (Ret × ListTokenSource)
  | Op.NextToken => (NextToken pkg s).map fun r => (Ret.token r.1, r.2)
  | Op.Skip => Result.ok (Ret.unit, Skip s)
  | Op.More => Result.ok (Ret.unit, More s)
  | Op.GetLine => (GetLine s).map fun i => (Ret.int i, s)
  | Op.GetCharPositionInLine => (GetCharPositionInLine s).map fun i => (Ret.int i, s)
  | Op.GetInputStream => (GetInputStream s).map fun c => (Ret.stream c, s)
  | Op.GetSourceName => Result.ok (Ret.string (GetSourceName s), s)
  | Op.setTokenFactory f => Result.ok (Ret.unit, setTokenFactory s f)
  | Op.GetTokenFactory => Result.ok (Ret.factory (GetTokenFactory s), s)

/-- A sequence of method calls, in order: the returned values and the final
state.  A panic in any call aborts the sequence. -/
def run (pkg : Package) (s : ListTokenSource) : List Op → Result (List Ret × ListTokenSource)
  | [] => Result.ok ([], s)
  | op :: ops =>
    (call pkg s op).bind fun r1 =>
    (run pkg r1.2 ops).map fun r2 => (r1.1 :: r2.1, r2.2)

/-- The tokens returned by the `NextToken` calls of a sequence, in order. -/
def nextResults : List Ret → List (Option Token)
  | [] => []
  | Ret.token t :: rs => t :: nextResults rs
  | _ :: rs => nextResults rs

/-- The number of `NextToken` calls in a sequence. -/
def countNext : List Op → Nat
  | [] => 0
  | Op.NextToken :: ops => countNext ops + 1
  | _ :: ops => countNext ops

/-- The factory in the `Factory` field after a sequence of calls that started
with factory `f`: the argument of the last `setTokenFactory`, if any. -/
def lastFactory (f : TokenFactory) : List Op → TokenFactory
  | [] => f
  | Op.setTokenFactory g :: ops => lastFactory g ops
  | _ :: ops => lastFactory f ops

/-- The cursor is inside `0 .. len(tokens)`. -/
def CursorInRange (s : ListTokenSource) : Prop :=
  0 ≤ s.idx ∧ s.idx ≤ len s.tokens

/-! ## The getters as the specification describes them -/

/-- The line query in the words of the specification: the current token's line
when the cursor is within bounds; else the cached end-of-stream token's line;
else `-1` for an empty sequence; else the last token's line plus the number of
newline characters in its text. -/
def GetLine_spec (s : ListTokenSource) : Result Int :=
  if s.idx < len s.tokens then
    (index s.tokens s.idx).map fun t => t.line
  else
    match s.eof, s.tokens.getLast? with
    | some e, _ => Result.ok e.line
    | none, none => Result.ok (-1)
    | none, some last =>
      Result.ok (last.line + ((last.text.data.filter fun c => c = '\n').length : Nat))

/-- The column query in the words of the specification: the current token's
column when the cursor is within bounds; else the cached end-of-stream token's
column; else `0` for an empty sequence; else, for the last token, the length of
its text when the text has no newline and `column + (stop - start + 1)` when it
has one. -/
def GetCharPositionInLine_spec (s : ListTokenSource) : Result Int :=
  if s.idx < len s.tokens then
    (index s.tokens s.idx).map fun t => t.column
  else
    match s.eof, s.tokens.getLast? with
    | some e, _ => Result.ok e.column
    | none, none => Result.ok 0
    | none, some last =>
      if '\n' ∈ last.text.data then
        Result.ok (last.column + (last.stop - last.start + 1))
      else
        Result.ok (last.text.utf8ByteSize : Nat)

/-- The value `x` is a Go `int`: it lies in `-2^63 .. 2^63-1`. -/
@[reducible] def FitsInt64 (x : Int) : Prop := minInt64 ≤ x ∧ x ≤ maxInt64

/-- The line query as the specification describes it, with the sum of the
last case taken in Go `int` arithmetic: the last token's line plus the number
of newline characters in its text, reduced to 64 bits. -/
def GetLine_spec64 (s : ListTokenSource) : Result Int :=
  if s.idx < len s.tokens then
    (index s.tokens s.idx).map fun t => t.line
  else
    match s.eof, s.tokens.getLast? with
    | some e, _ => Result.ok e.line
    | none, none => Result.ok (-1)
    | none, some last =>
      Result.ok (wrapInt
        (last.line + ((last.text.data.filter fun c => c = '\n').length : Nat)))

/-- The column query as the specification describes it, with the values of the
last case taken in Go `int` arithmetic: the length of the last token's text
when the text has no newline and `column + (stop - start + 1)` when it has
one, each reduced to 64 bits. -/
def GetCharPositionInLine_spec64 (s : ListTokenSource) : Result Int :=
  if s.idx < len s.tokens then
    (index s.tokens s.idx).map fun t => t.column
  else
    match s.eof, s.tokens.getLast? with
    | some e, _ => Result.ok e.column
    | none, none => Result.ok 0
    | none, some last =>
      if '\n' ∈ last.text.data then
        Result.ok (wrapInt (last.column + (last.stop - last.start + 1)))
      else
        Result.ok (wrapInt (last.text.utf8ByteSize : Nat))

/-- The stream query in the words of the specification: the current token's
stream when the cursor is within bounds; else the cached end-of-stream token's
stream; else the last token's stream; else no stream. -/
def GetInputStream_spec (s : ListTokenSource) : Result CharStream :=
  if s.idx < len s.tokens then
    (index s.tokens s.idx).map fun t => t.stream
  else
    match s.eof, s.tokens.getLast? with
    | some e, _ => Result.ok e.stream
    | none, some last => Result.ok last.stream
    | none, none => Result.ok CharStream.nil

/-! ## Concrete data for the scenarios of the specification -/

/-- A factory that stores its arguments in the token it creates. -/
def storingFactory (ref : Nat) : TokenFactory where
  Create pair ttype text channel start stop line column :=
    { ref := ref, tokenType := ttype, channel := channel, text := text,
      start := start, stop := stop, line := line, column := column,
      source := some pair.tokenSource, stream := pair.charStream }

/-- A package whose default factory is `storingFactory 100`. -/
def demoPackage : Package where
  TokenEOF := -1
  TokenDefaultChannel := 0
  CommonTokenFactoryDEFAULT := storingFactory 100

/-- A token of type 1 on the default channel, read from stream 7. -/
def mkTok (ref : Nat) (text : String) (start stop line column : Int) : Token :=
  { ref := ref, tokenType := 1, channel := 0, text := text, start := start,
    stop := stop, line := line, column := column, source := none,
    stream := CharStream.stream 7 }

/-- Scenario A: the tokens `foo` and `bar`. -/
def scenarioA : List Token := [mkTok 1 "foo" 0 2 1 0, mkTok 2 "bar" 4 6 1 4]

/-- Scenario C: one token whose text spans two lines. -/
def scenarioC : List Token := [mkTok 1 "a\nb" 0 2 1 0]

/-- Scenario C after its token is consumed, with no end-of-stream token
created yet. -/
def scenarioCConsumed : ListTokenSource :=
  { tokens := scenarioC, eof := none, idx := 1, Name := "c",
    Factory := storingFactory 100, self := 9, created := [] }

/-- A token whose stop offset is negative and is not the sentinel. -/
def negativeStop : List Token := [mkTok 1 "x" (-6) (-5) 1 0]

/-- A token whose stop offset is `math.MaxInt64`. -/
def maxStop : List Token := [mkTok 1 "x" 0 maxInt64 1 0]

/-- A two-line token on line `math.MaxInt64`. -/
def maxLine : List Token := [mkTok 1 "a\nb" 0 2 maxInt64 0]

/-- A two-line token that starts at `math.MinInt64` and stops at
`math.MaxInt64`. -/
def fullSpan : List Token := [mkTok 1 "a\nb" minInt64 maxInt64 1 0]

/-- The `(start, stop, line, column)` arguments of the recorded `Create` calls. -/
def createdSpans (s : ListTokenSource) : List (Int × Int × Int × Int) :=
  s.created.map fun c => (c.start, c.stop, c.line, c.column)

/-- The token a recorded `Create` call returned. -/
def CreateCall.result (c : CreateCall) : Token :=
  c.factory.Create c.pair c.ttype c.text c.channel c.start c.stop c.line c.column

/-- `NextToken` with the check `idx == len(tokens) && t.GetTokenType() == TokenEOF`
of its in-bounds branch left out, the variant the design notes of the
specification allow. -/
def NextToken_withoutCheck (pkg : Package) (s : ListTokenSource) :
    Result (Option Token × ListTokenSource) :=
  if s.idx ≥ len s.tokens then
    (makeEOFToken pkg s).bind fun s1 =>
    Result.ok (s1.eof, s1)
  else
    (index s.tokens s.idx).bind fun t =>
    Result.ok (some t, { s with idx := s.idx + 1 })

/-- A faithful factory: the token it creates reports the line and column it
was given and the input stream of the pair it was given. -/
def Faithful (f : TokenFactory) : Prop :=
  ∀ (pair : TokenSourceCharStreamPair) (ttype : Int) (text : String)
    (channel start stop line column : Int),
    (f.Create pair ttype text channel start stop line column).line = line ∧
    (f.Create pair ttype text channel start stop line column).column = column ∧
    (f.Create pair ttype text channel start stop line column).stream = pair.charStream

/-- A list whose last token has the type `TokenEOF` of `demoPackage`. -/
def trailingEOF : List Token :=
  [mkTok 1 "foo" 0 2 1 0, { mkTok 2 "<EOF>" 3 2 1 3 with tokenType := -1 }]

/-! ## Basic facts -/

namespace Result

@[simp] theorem bind_ok {α β : Type} (v : α) (f : α → Result β) :
    (Result.ok v).bind f = f v := rfl

@[simp] theorem bind_panic {α β : Type} (f : α → Result β) :
    (Result.panic : Result α).bind f = Result.panic := rfl

@[simp] theorem map_ok {α β : Type} (v : α) (f : α → β) :
    (Result.ok v).map f = Result.ok (f v) := rfl

@[simp] theorem map_panic {α β : Type} (f : α → β) :
    (Result.panic : Result α).map f = Result.panic := rfl

end Result

theorem wrapInt_of_fits (x : Int) (h : FitsInt64 x) : wrapInt x = x := by
  unfold FitsInt64 minInt64 maxInt64 at h
  unfold wrapInt
  omega

theorem wrapInt_add_left (a b : Int) : wrapInt (wrapInt a + b) = wrapInt (a + b) := by
  unfold wrapInt
  omega

theorem wrapInt_sub_left (a b : Int) : wrapInt (wrapInt a - b) = wrapInt (a - b) := by
  unfold wrapInt
  omega

theorem len_nonneg (ts : List Token) : 0 ≤ len ts := by
  unfold len; exact Int.natCast_nonneg _

theorem index_eq_ok (ts : List Token) (i : Int) (h0 : 0 ≤ i) (h1 : i < len ts) :
    ∃ t, index ts i = Result.ok t ∧ ts[i.toNat]? = some t := by
  have hlt : i.toNat < ts.length := by
    unfold len at h1; omega
  refine ⟨ts[i.toNat], ?_, ?_⟩
  · unfold index
    rw [if_neg (by omega), List.getElem?_eq_getElem hlt]
  · exact List.getElem?_eq_getElem hlt

theorem index_last (ts : List Token) (last : Token) (h : ts.getLast? = some last) :
    index ts (len ts - 1) = Result.ok last := by
  have hne : ts ≠ [] := by
    rintro rfl; simp at h
  have hpos : 0 < ts.length := List.length_pos.mpr hne
  have hidx : (len ts - 1).toNat = ts.length - 1 := by
    unfold len; omega
  unfold index
  rw [if_neg (by unfold len; omega), hidx]
  rw [List.getLast?_eq_getElem?] at h
  rw [h]

theorem len_eq_zero_iff (ts : List Token) : len ts = 0 ↔ ts = [] := by
  unfold len
  constructor
  · intro h
    exact List.length_eq_zero.mp (by omega)
  · rintro rfl; rfl

theorem len_pos_iff (ts : List Token) : len ts > 0 ↔ ts ≠ [] := by
  have h := len_eq_zero_iff ts
  have h0 := len_nonneg ts
  constructor
  · intro hp hnil
    have := h.mpr hnil
    omega
  · intro hne
    have : len ts ≠ 0 := fun hz => hne (h.mp hz)
    omega

namespace strings

theorem lastIndexFrom_of_not_mem (c : Char) (l : List Char) (pos : Nat) (acc : Int)
    (h : c ∉ l) : lastIndexFrom c l pos acc = acc := by
  induction l generalizing pos acc with
  | nil => rfl
  | cons x xs ih =>
    have hx : x ≠ c := fun e => h (by simp [e])
    have hxs : c ∉ xs := fun m => h (List.mem_cons_of_mem _ m)
    simp only [lastIndexFrom, if_neg hx]
    exact ih _ _ hxs

theorem lastIndexFrom_nonneg (c : Char) (l : List Char) (pos : Nat) (acc : Int)
    (h : 0 ≤ acc) : 0 ≤ lastIndexFrom c l pos acc := by
  induction l generalizing pos acc with
  | nil => exact h
  | cons x xs ih =>
    simp only [lastIndexFrom]
    apply ih
    split
    · exact Int.natCast_nonneg _
    · exact h

theorem lastIndexFrom_of_mem (c : Char) (l : List Char) (pos : Nat) (acc : Int)
    (h : c ∈ l) : 0 ≤ lastIndexFrom c l pos acc := by
  induction l generalizing pos acc with
  | nil => simp at h
  | cons x xs ih =>
    simp only [lastIndexFrom]
    by_cases hx : x = c
    · rw [if_pos hx]
      exact lastIndexFrom_nonneg _ _ _ _ (Int.natCast_nonneg _)
    · have hxs : c ∈ xs := by
        rcases List.mem_cons.mp h with e | m
        · exact absurd e.symm hx
        · exact m
      exact ih _ _ hxs

theorem LastIndex_eq_neg_one_iff (s : String) (c : Char) :
    LastIndex s c = -1 ↔ c ∉ s.data := by
  unfold LastIndex
  constructor
  · intro h hm
    have := lastIndexFrom_of_mem c s.data 0 (-1) hm
    omega
  · intro hm
    exact lastIndexFrom_of_not_mem c s.data 0 (-1) hm

theorem Count_eq_filter_length (s : String) (c : Char) :
    Count s c = ((s.data.filter fun x => x = c).length : Nat) := by
  unfold Count
  congr 1
  rw [List.count_eq_countP, List.countP_eq_length_filter]
  congr 1

end strings

namespace ListTokenSource

/-! ### The getters, case by case -/

theorem getLast?_eq_none_of_len (ts : List Token) (h : len ts = 0) : ts.getLast? = none := by
  rw [(len_eq_zero_iff ts).mp h]; rfl

theorem exists_getLast?_of_len (ts : List Token) (h : ¬ len ts = 0) :
    ∃ last, ts.getLast? = some last := by
  have hne : ts ≠ [] := fun e => h ((len_eq_zero_iff ts).mpr e)
  exact ⟨ts.getLast hne, List.getLast?_eq_getLast ts hne⟩

theorem GetLine_eq_spec64 (s : ListTokenSource) : GetLine s = GetLine_spec64 s := by
  unfold GetLine GetLine_spec64
  by_cases h : s.idx < len s.tokens
  · simp only [if_pos h]; rfl
  · simp only [if_neg h]
    cases he : s.eof with
    | some e => rfl
    | none =>
      by_cases hz : len s.tokens = 0
      · simp only [if_pos hz, getLast?_eq_none_of_len _ hz]
      · obtain ⟨last, hl⟩ := exists_getLast?_of_len _ hz
        simp only [if_neg hz, hl, index_last _ _ hl, Result.map_ok, Token.GetLine,
          Token.GetText, strings.Count_eq_filter_length, goAdd]

theorem GetCharPositionInLine_eq_spec64 (s : ListTokenSource) :
    GetCharPositionInLine s = GetCharPositionInLine_spec64 s := by
  unfold GetCharPositionInLine GetCharPositionInLine_spec64
  by_cases h : s.idx < len s.tokens
  · simp only [if_pos h]; rfl
  · simp only [if_neg h]
    cases he : s.eof with
    | some e => rfl
    | none =>
      by_cases hz : len s.tokens = 0
      · simp only [if_pos hz, getLast?_eq_none_of_len _ hz]
      · obtain ⟨last, hl⟩ := exists_getLast?_of_len _ hz
        simp only [if_neg hz, hl, index_last _ _ hl, Result.map_ok, Token.GetColumn,
          Token.GetText, Token.GetStop, Token.GetStart]
        by_cases hm : '\n' ∈ last.text.data
        · have hne : ¬ strings.LastIndex last.text '\n' = -1 := fun e =>
            (strings.LastIndex_eq_neg_one_iff _ _).mp e hm
          rw [if_neg hne, if_pos hm]
          have hsum : goAdd (goSub (goAdd last.column last.stop) last.start) 1 =
              wrapInt (last.column + (last.stop - last.start + 1)) := by
            simp only [goAdd, goSub, wrapInt_add_left, wrapInt_sub_left]
            have hre : last.column + last.stop - last.start + 1 =
                last.column + (last.stop - last.start + 1) := by omega
            rw [hre]
          rw [hsum]
        · have he1 : strings.LastIndex last.text '\n' = -1 :=
            (strings.LastIndex_eq_neg_one_iff _ _).mpr hm
          rw [if_pos he1, if_neg hm, he1]
          have hlen : goSub (goSub (strings.len last.text) (-1)) 1 =
              wrapInt ((last.text.utf8ByteSize : Nat) : Int) := by
            simp only [goSub, wrapInt_sub_left, strings.len]
            have hre : ((last.text.utf8ByteSize : Nat) : Int) - -1 - 1 =
                ((last.text.utf8ByteSize : Nat) : Int) := by omega
            rw [hre]
          rw [hlen]

theorem GetInputStream_eq_spec (s : ListTokenSource) :
    GetInputStream s = GetInputStream_spec s := by
  unfold GetInputStream GetInputStream_spec
  by_cases h : s.idx < len s.tokens
  · simp only [if_pos h]; rfl
  · simp only [if_neg h]
    cases he : s.eof with
    | some e => rfl
    | none =>
      by_cases hz : len s.tokens = 0
      · have hp : ¬ len s.tokens > 0 := by omega
        simp only [if_neg hp, getLast?_eq_none_of_len _ hz]
      · obtain ⟨last, hl⟩ := exists_getLast?_of_len _ hz
        have hp : len s.tokens > 0 := by
          have := len_nonneg s.tokens
          omega
        simp only [if_pos hp, hl, index_last _ _ hl, Result.map_ok, Token.GetInputStream]

/-! ### Totality of the getters in the exhausted state -/

theorem GetLine_total (s : ListTokenSource) (h : len s.tokens ≤ s.idx) :
    ∃ v, GetLine s = Result.ok v := by
  rw [GetLine_eq_spec64]
  unfold GetLine_spec64
  rw [if_neg (by omega)]
  cases s.eof <;> cases s.tokens.getLast? <;> exact ⟨_, rfl⟩

theorem GetCharPositionInLine_total (s : ListTokenSource) (h : len s.tokens ≤ s.idx) :
    ∃ v, GetCharPositionInLine s = Result.ok v := by
  rw [GetCharPositionInLine_eq_spec64]
  unfold GetCharPositionInLine_spec64
  rw [if_neg (by omega)]
  cases s.eof with
  | some e => exact ⟨_, rfl⟩
  | none =>
    cases s.tokens.getLast? with
    | none => exact ⟨_, rfl⟩
    | some last =>
      by_cases hm : '\n' ∈ last.text.data
      · exact ⟨_, if_pos hm⟩
      · exact ⟨_, if_neg hm⟩

theorem GetInputStream_total (s : ListTokenSource) (h : len s.tokens ≤ s.idx) :
    ∃ v, GetInputStream s = Result.ok v := by
  rw [GetInputStream_eq_spec]
  unfold GetInputStream_spec
  rw [if_neg (by omega)]
  cases s.eof <;> cases s.tokens.getLast? <;> exact ⟨_, rfl⟩

theorem eofStart_nil (s : ListTokenSource) (h : s.tokens = []) :
    eofStart s = Result.ok (-1) := by
  unfold eofStart
  rw [if_neg (by rw [h]; decide)]

theorem eofStart_last (s : ListTokenSource) (last : Token)
    (h : s.tokens.getLast? = some last) :
    eofStart s = Result.ok (if last.stop ≠ -1 then goAdd last.stop 1 else -1) := by
  have hne : s.tokens ≠ [] := by
    intro e; rw [e] at h; simp at h
  unfold eofStart
  rw [if_pos ((len_pos_iff _).mpr hne), index_last _ _ h]
  rfl

theorem eofStart_total (s : ListTokenSource) : ∃ v, eofStart s = Result.ok v := by
  cases h : s.tokens.getLast? with
  | none => exact ⟨_, eofStart_nil s (List.getLast?_eq_none_iff.mp h)⟩
  | some last => exact ⟨_, eofStart_last s last h⟩

/-! ### One call of `NextToken` -/

theorem NextToken_inBounds (pkg : Package) (s : ListTokenSource)
    (h0 : 0 ≤ s.idx) (h1 : s.idx < len s.tokens) :
    ∃ t, s.tokens[s.idx.toNat]? = some t ∧
      NextToken pkg s = Result.ok (some t, { s with idx := s.idx + 1 }) := by
  obtain ⟨t, ht, hget⟩ := index_eq_ok s.tokens s.idx h0 h1
  refine ⟨t, hget, ?_⟩
  unfold NextToken
  have hne : ¬ (s.idx = len s.tokens ∧ t.GetTokenType = pkg.TokenEOF) := by
    rintro ⟨e, _⟩; omega
  simp only [ge_iff_le, if_neg (not_le.mpr h1), ht, Result.bind_ok, if_neg hne]

theorem NextToken_cached (pkg : Package) (s : ListTokenSource) (e : Token)
    (h : len s.tokens ≤ s.idx) (he : s.eof = some e) :
    NextToken pkg s = Result.ok (some e, s) := by
  unfold NextToken makeEOFToken
  simp only [ge_iff_le, if_pos h, he, Result.bind_ok]

theorem NextToken_fresh (pkg : Package) (s : ListTokenSource)
    (h : len s.tokens ≤ s.idx) (he : s.eof = none) :
    ∃ start stream line column,
      eofStart s = Result.ok start ∧ GetInputStream s = Result.ok stream ∧
      GetLine s = Result.ok line ∧ GetCharPositionInLine s = Result.ok column ∧
      NextToken pkg s = Result.ok
        (some (s.Factory.Create ⟨s.self, stream⟩ pkg.TokenEOF "EOF"
            pkg.TokenDefaultChannel start (eofStop start) line column),
         { s with
            eof := some (s.Factory.Create ⟨s.self, stream⟩ pkg.TokenEOF "EOF"
              pkg.TokenDefaultChannel start (eofStop start) line column)
            created := s.created ++
              [⟨s.Factory, ⟨s.self, stream⟩, pkg.TokenEOF, "EOF",
                pkg.TokenDefaultChannel, start, eofStop start, line, column⟩] }) := by
  obtain ⟨start, hs⟩ := eofStart_total s
  obtain ⟨stream, hst⟩ := GetInputStream_total s h
  obtain ⟨line, hl⟩ := GetLine_total s h
  obtain ⟨column, hc⟩ := GetCharPositionInLine_total s h
  refine ⟨start, stream, line, column, hs, hst, hl, hc, ?_⟩
  unfold NextToken makeEOFToken
  simp only [ge_iff_le, if_pos h, he, hs, hst, hl, hc, Result.bind_ok]

/-! ### Totality of the getters for a cursor that is not negative -/

theorem GetLine_ok (s : ListTokenSource) (h0 : 0 ≤ s.idx) :
    ∃ v, GetLine s = Result.ok v := by
  by_cases h : s.idx < len s.tokens
  · obtain ⟨t, ht, _⟩ := index_eq_ok s.tokens s.idx h0 h
    exact ⟨t.GetLine, by unfold GetLine; rw [if_pos h, ht]; rfl⟩
  · exact GetLine_total s (by omega)

theorem GetCharPositionInLine_ok (s : ListTokenSource) (h0 : 0 ≤ s.idx) :
    ∃ v, GetCharPositionInLine s = Result.ok v := by
  by_cases h : s.idx < len s.tokens
  · obtain ⟨t, ht, _⟩ := index_eq_ok s.tokens s.idx h0 h
    exact ⟨t.GetColumn, by unfold GetCharPositionInLine; rw [if_pos h, ht]; rfl⟩
  · exact GetCharPositionInLine_total s (by omega)

theorem GetInputStream_ok (s : ListTokenSource) (h0 : 0 ≤ s.idx) :
    ∃ v, GetInputStream s = Result.ok v := by
  by_cases h : s.idx < len s.tokens
  · obtain ⟨t, ht, _⟩ := index_eq_ok s.tokens s.idx h0 h
    exact ⟨t.GetInputStream, by unfold GetInputStream; rw [if_pos h, ht]; rfl⟩
  · exact GetInputStream_total s (by omega)

end ListTokenSource

/-! ### One call of any method -/

theorem call_other (pkg : Package) (s : ListTokenSource) (op : Op)
    (hop : op ≠ Op.NextToken) (h0 : 0 ≤ s.idx) :
    ∃ r, call pkg s op = Result.ok (r, { s with Factory := lastFactory s.Factory [op] }) ∧
      ∀ rs, nextResults (r :: rs) = nextResults rs := by
  cases op with
  | NextToken => exact absurd rfl hop
  | Skip => exact ⟨_, rfl, fun _ => rfl⟩
  | More => exact ⟨_, rfl, fun _ => rfl⟩
  | GetLine =>
    obtain ⟨v, hv⟩ := GetLine_ok s h0
    exact ⟨Ret.int v, by simp only [call, hv, Result.map_ok, lastFactory], fun _ => rfl⟩
  | GetCharPositionInLine =>
    obtain ⟨v, hv⟩ := GetCharPositionInLine_ok s h0
    exact ⟨Ret.int v, by simp only [call, hv, Result.map_ok, lastFactory], fun _ => rfl⟩
  | GetInputStream =>
    obtain ⟨v, hv⟩ := GetInputStream_ok s h0
    exact ⟨Ret.stream v, by simp only [call, hv, Result.map_ok, lastFactory], fun _ => rfl⟩
  | GetSourceName => exact ⟨_, rfl, fun _ => rfl⟩
  | setTokenFactory f => exact ⟨_, rfl, fun _ => rfl⟩
  | GetTokenFactory => exact ⟨_, rfl, fun _ => rfl⟩

theorem lastFactory_cons_other (f : TokenFactory) (op : Op) (ops : List Op) :
    lastFactory f (op :: ops) = lastFactory (lastFactory f [op]) ops := by
  cases op <;> rfl

theorem countNext_cons_other (op : Op) (ops : List Op) (hop : op ≠ Op.NextToken) :
    countNext (op :: ops) = countNext ops := by
  cases op <;> first | rfl | exact absurd rfl hop

/-! ### Sequences of calls -/


theorem drop_cons_of_getElem? (ts : List Token) (i : Nat) (t : Token)
    (h : ts[i]? = some t) : ts.drop i = t :: ts.drop (i + 1) := by
  obtain ⟨hlt, rfl⟩ := List.getElem?_eq_some_iff.mp h
  exact List.drop_eq_getElem_cons hlt

theorem NextToken_fresh_exists (pkg : Package) (s : ListTokenSource)
    (h : len s.tokens ≤ s.idx) (he : s.eof = none) :
    ∃ e c, NextToken pkg s = Result.ok
      (some e, { s with eof := some e, created := s.created ++ [c] }) := by
  obtain ⟨start, stream, line, column, _, _, _, _, hnt⟩ := NextToken_fresh pkg s h he
  exact ⟨_, _, hnt⟩

theorem run_char (pkg : Package) (ops : List Op) :
    ∀ s : ListTokenSource, CursorInRange s →
    ∃ rets s1, run pkg s ops = Result.ok (rets, s1) ∧
      s1.tokens = s.tokens ∧ s1.Name = s.Name ∧ s1.self = s.self ∧
      s1.Factory = lastFactory s.Factory ops ∧
      s1.idx = min (s.idx + countNext ops) (len s.tokens) ∧
      nextResults rets =
        ((s.tokens.drop s.idx.toNat).take (countNext ops)).map some ++
          List.replicate (countNext ops - (s.tokens.length - s.idx.toNat)) s1.eof ∧
      (∀ e, s.eof = some e → s1.eof = some e ∧ s1.created = s.created) ∧
      (s.idx + countNext ops ≤ len s.tokens → s1.eof = s.eof ∧ s1.created = s.created) ∧
      (len s.tokens < s.idx + countNext ops → ∃ e, s1.eof = some e) := by
  induction ops with
  | nil =>
    intro s hinv
    obtain ⟨h0, h1⟩ := hinv
    refine ⟨[], s, rfl, rfl, rfl, rfl, rfl, ?_, ?_, fun e he => ⟨he, rfl⟩,
      fun _ => ⟨rfl, rfl⟩, ?_⟩
    · simp only [countNext]; omega
    · simp [countNext, nextResults]
    · intro h; simp only [countNext] at h; omega
  | cons op rest ih =>
    intro s hinv
    obtain ⟨h0, h1⟩ := hinv
    by_cases hop : op = Op.NextToken
    · subst hop
      by_cases hlt : s.idx < len s.tokens
      · obtain ⟨t, hget, hnt⟩ := NextToken_inBounds pkg s h0 hlt
        obtain ⟨rets, s1, hrun, htok, hname, hself, hfac, hidx, hres, hkeep, hle, hgt⟩ :=
          ih { s with idx := s.idx + 1 } ⟨by simp only; omega, by simp only; omega⟩
        simp only at htok hname hself hfac hidx hres hkeep hle hgt
        refine ⟨Ret.token (some t) :: rets, s1, ?_, htok, hname, hself, hfac, ?_, ?_,
          hkeep, ?_, ?_⟩
        · simp only [run, call, hnt, Result.map_ok, Result.bind_ok, hrun]
        · simp only [countNext]; rw [hidx]; push_cast; omega
        · have hi : (s.idx + 1).toNat = s.idx.toNat + 1 := by omega
          have hk : countNext rest + 1 - (s.tokens.length - s.idx.toNat) =
              countNext rest - (s.tokens.length - (s.idx.toNat + 1)) := by
            unfold len at hlt; omega
          simp only [nextResults, countNext, hres, hi, hk,
            drop_cons_of_getElem? _ _ _ hget, List.take_succ_cons, List.map_cons,
            List.cons_append]
        · intro h; apply hle; simp only [countNext] at h; push_cast at h; omega
        · intro h; apply hgt; simp only [countNext] at h; push_cast at h; omega
      · have hge : len s.tokens ≤ s.idx := by omega
        have hdrop : s.tokens.drop s.idx.toNat = [] := by
          apply List.drop_of_length_le; unfold len at hge; omega
        have hzero : s.tokens.length - s.idx.toNat = 0 := by
          unfold len at hge; omega
        cases he : s.eof with
        | some e =>
          have hnt := NextToken_cached pkg s e hge he
          obtain ⟨rets, s1, hrun, htok, hname, hself, hfac, hidx, hres, hkeep, hle, hgt⟩ :=
            ih s ⟨h0, h1⟩
          obtain ⟨he1, hc1⟩ := hkeep e he
          refine ⟨Ret.token (some e) :: rets, s1, ?_, htok, hname, hself, hfac, ?_, ?_,
            ?_, ?_, ?_⟩
          · simp only [run, call, hnt, Result.map_ok, Result.bind_ok, hrun]
          · simp only [countNext]; rw [hidx]; push_cast; omega
          · simp only [nextResults, countNext, hres, hdrop, hzero, List.take_nil,
              List.map_nil, List.nil_append, Nat.sub_zero, List.replicate_succ, he1]
          · intro e2 he2; cases he2; exact ⟨he1, hc1⟩
          · intro _; exact ⟨he1, hc1⟩
          · intro _; exact ⟨e, he1⟩
        | none =>
          obtain ⟨e, c, hnt⟩ := NextToken_fresh_exists pkg s hge he
          obtain ⟨rets, s1, hrun, htok, hname, hself, hfac, hidx, hres, hkeep, hle, hgt⟩ :=
            ih { s with eof := some e, created := s.created ++ [c] } ⟨h0, h1⟩
          simp only at htok hname hself hfac hidx hres hkeep hle hgt
          obtain ⟨he1, hc1⟩ := hkeep _ rfl
          refine ⟨Ret.token (some e) :: rets, s1, ?_, htok, hname, hself, hfac, ?_, ?_,
            ?_, ?_, ?_⟩
          · simp only [run, call, hnt, Result.map_ok, Result.bind_ok, hrun]
          · simp only [countNext]; rw [hidx]; push_cast; omega
          · simp only [nextResults, countNext, hres, hdrop, hzero, List.take_nil,
              List.map_nil, List.nil_append, Nat.sub_zero, List.replicate_succ, he1]
          · intro e2 he2; cases he2
          · intro h; simp only [countNext] at h; push_cast at h; omega
          · intro _; exact ⟨_, he1⟩
    · obtain ⟨r, hcall, hres1⟩ := call_other pkg s op hop h0
      obtain ⟨rets, s1, hrun, htok, hname, hself, hfac, hidx, hres, hkeep, hle, hgt⟩ :=
        ih { s with Factory := lastFactory s.Factory [op] } ⟨h0, h1⟩
      simp only at htok hname hself hfac hidx hres hkeep hle hgt
      refine ⟨r :: rets, s1, ?_, htok, hname, hself, ?_, ?_, ?_, hkeep, ?_, ?_⟩
      · simp only [run, hcall, Result.map_ok, Result.bind_ok, hrun]
      · rw [hfac]; exact (lastFactory_cons_other _ _ _).symm
      · rw [countNext_cons_other _ _ hop]; exact hidx
      · rw [countNext_cons_other _ _ hop, hres1]; exact hres
      · rw [countNext_cons_other _ _ hop]; exact hle
      · rw [countNext_cons_other _ _ hop]; exact hgt
end Antlr
namespace Antlr
open ListTokenSource

theorem countNext_replicate (n : Nat) : countNext (List.replicate n Op.NextToken) = n := by
  induction n with
  | zero => rfl
  | succ n ih => simp only [List.replicate_succ, countNext, ih]

theorem GetLine_cached (s : ListTokenSource) (e : Token)
    (h : len s.tokens ≤ s.idx) (he : s.eof = some e) : GetLine s = Result.ok e.line := by
  unfold GetLine
  rw [if_neg (by omega), he]
  rfl

theorem GetCharPositionInLine_cached (s : ListTokenSource) (e : Token)
    (h : len s.tokens ≤ s.idx) (he : s.eof = some e) :
    GetCharPositionInLine s = Result.ok e.column := by
  unfold GetCharPositionInLine
  rw [if_neg (by omega), he]
  rfl

/-- The state a fresh source is in after calls of which at most `len(tokens)`
are `NextToken`: only the cursor and the factory have changed. -/
theorem run_fresh_front (pkg : Package) (addr : SourceRef) (ts : List Token)
    (name : String) (ops : List Op) (hk : countNext ops ≤ ts.length) :
    ∃ rets, run pkg (NewListTokenSource pkg addr ts name) ops =
        Result.ok (rets,
          { tokens := ts, eof := none, idx := (countNext ops : Nat), Name := name,
            Factory := lastFactory pkg.CommonTokenFactoryDEFAULT ops, self := addr,
            created := [] }) ∧
      nextResults rets = (ts.take (countNext ops)).map some := by
  obtain ⟨rets, s1, hrun, htok, hname, hself, hfac, hidx, hres, _, hle, _⟩ :=
    run_char pkg ops (NewListTokenSource pkg addr ts name)
      ⟨le_refl _, len_nonneg ts⟩
  simp only [NewListTokenSource] at htok hname hself hfac hidx hres hle
  obtain ⟨heof, hcr⟩ := hle (by unfold len; omega)
  refine ⟨rets, ?_, ?_⟩
  · rw [hrun]
    obtain ⟨t, e, i, n, f, a, c⟩ := s1
    simp only at htok hname hself hfac hidx heof hcr
    subst htok hname hself hfac heof hcr
    have : i = (countNext ops : Nat) := by
      rw [hidx]; unfold len; omega
    rw [this]
  · rw [hres]
    have hz : countNext ops - ts.length = 0 := by omega
    simp [hz]

/-! ## Properties stated by the specification -/

/-- C1: on the source built by `NewListTokenSource ts name`, the first
`len(ts)` calls of `NextToken` return `ts[0], ts[1], ...` in that order: the
calls made back to back return exactly `ts`, and in any sequence of method
calls the results of the first `len(ts)` `NextToken` calls are the
corresponding front of `ts`. -/
theorem NextToken_returns_tokens_in_order (pkg : Package) (addr : SourceRef)
    (ts : List Token) (name : String) :
    (∃ rets s1, run pkg (NewListTokenSource pkg addr ts name)
        (List.replicate ts.length Op.NextToken) = Result.ok (rets, s1) ∧
      nextResults rets = ts.map some) ∧
    (∀ ops : List Op, ∃ rets s1,
      run pkg (NewListTokenSource pkg addr ts name) ops = Result.ok (rets, s1) ∧
      (nextResults rets).take ts.length = (ts.take (countNext ops)).map some) := by
  constructor
  · obtain ⟨rets, hrun, hres⟩ := run_fresh_front pkg addr ts name
      (List.replicate ts.length Op.NextToken) (by rw [countNext_replicate])
    refine ⟨rets, _, hrun, ?_⟩
    rw [hres, countNext_replicate, List.take_length]
  · intro ops
    obtain ⟨rets, s1, hrun, _, _, _, _, _, hres, _, _, _⟩ :=
      run_char pkg ops (NewListTokenSource pkg addr ts name) ⟨le_refl _, len_nonneg ts⟩
    refine ⟨rets, s1, hrun, ?_⟩
    simp only [NewListTokenSource, Int.toNat_zero, List.drop_zero, Nat.sub_zero] at hres
    rw [hres]
    by_cases hk : countNext ops ≤ ts.length
    · have hz : countNext ops - ts.length = 0 := by omega
      rw [hz, List.replicate_zero, List.append_nil]
      apply List.take_of_length_le
      rw [List.length_map, List.length_take]
      omega
    · rw [List.take_of_length_le (by omega : ts.length ≤ countNext ops)]
      exact List.take_left' (List.length_map _ _)

/-- C2: on the source built by `NewListTokenSource ts name`, in any sequence
of method calls (with `Skip`, `More`, the getters and `setTokenFactory` in
between), the results of the `NextToken` calls after the `len(ts)`-th are all
the same value, the token cached in `eof`, and that value is a token. -/
theorem NextToken_after_end_is_constant (pkg : Package) (addr : SourceRef)
    (ts : List Token) (name : String) (ops : List Op) :
    ∃ rets s1, run pkg (NewListTokenSource pkg addr ts name) ops = Result.ok (rets, s1) ∧
      (nextResults rets).drop ts.length =
        List.replicate (countNext ops - ts.length) s1.eof ∧
      (countNext ops ≤ ts.length ∨ ∃ e, s1.eof = some e) := by
  obtain ⟨rets, s1, hrun, _, _, _, _, _, hres, _, _, hgt⟩ :=
    run_char pkg ops (NewListTokenSource pkg addr ts name) ⟨le_refl _, len_nonneg ts⟩
  refine ⟨rets, s1, hrun, ?_, ?_⟩
  · simp only [NewListTokenSource, Int.toNat_zero, List.drop_zero, Nat.sub_zero] at hres
    rw [hres]
    by_cases hk : countNext ops ≤ ts.length
    · have hz : countNext ops - ts.length = 0 := by omega
      rw [hz, List.replicate_zero, List.append_nil]
      apply List.drop_of_length_le
      rw [List.length_map, List.length_take]
      omega
    · rw [List.take_of_length_le (by omega : ts.length ≤ countNext ops)]
      exact List.drop_left' (List.length_map _ _)
  · by_cases hk : countNext ops ≤ ts.length
    · exact Or.inl hk
    · right
      apply hgt
      simp only [NewListTokenSource]
      unfold len
      omega

/-- C3 fails as stated, at two last stop offsets other than the sentinel `-1`.
With last stop `-5` the end-of-stream token is created with start `-4` and
stop `-1`, not stop `-5`.  With last stop `math.MaxInt64` the sum `s + 1` wraps
around: the token is created with start `math.MinInt64` and stop `-1`. -/
theorem eof_stop_of_negative_last_stop :
    (negativeStop.getLast?.map Token.stop = some (-5) ∧
     (run demoPackage (NewListTokenSource demoPackage 9 negativeStop "neg")
        [Op.NextToken, Op.NextToken]).map
      (fun r => (nextResults r.1, createdSpans r.2)) =
      Result.ok
        ([some (mkTok 1 "x" (-6) (-5) 1 0),
          some { ref := 100, tokenType := -1, channel := 0, text := "EOF", start := -4,
                 stop := -1, line := 1, column := 1, source := some 9,
                 stream := CharStream.stream 7 }],
         [(-4, -1, 1, 1)])) ∧
    (maxStop.getLast?.map Token.stop = some 9223372036854775807 ∧
     (run demoPackage (NewListTokenSource demoPackage 9 maxStop "max")
        [Op.NextToken, Op.NextToken]).map (fun r => createdSpans r.2) =
      Result.ok [(-9223372036854775808, -1, 1, 1)]) :=
  ⟨⟨by decide, by decide⟩, by decide, by decide⟩

/-- C3, amended: when the last token of the list has a stop offset `s` other
than `-1`, the first `NextToken` call made after the list is used up creates
the end-of-stream token by one `Create` call whose start is `s + 1` in Go
`int` arithmetic (`math.MinInt64` when `s` is `math.MaxInt64`, the exact sum
otherwise) and whose stop is `s` when `0 ≤ s < math.MaxInt64` and `-1`
otherwise. -/
theorem eof_span_after_last_stop (pkg : Package) (addr : SourceRef) (ts : List Token)
    (name : String) (ops : List Op) (last : Token)
    (hlast : ts.getLast? = some last) (hstop : last.stop ≠ -1)
    (hint : FitsInt64 last.stop)
    (hops : countNext ops = ts.length) :
    ∃ rets s1 e c s2,
      run pkg (NewListTokenSource pkg addr ts name) ops = Result.ok (rets, s1) ∧
      s1.created = [] ∧
      NextToken pkg s1 = Result.ok (some e, s2) ∧
      s2.eof = some e ∧ s2.created = [c] ∧
      e = c.factory.Create c.pair c.ttype c.text c.channel c.start c.stop c.line c.column ∧
      c.start = (if last.stop = maxInt64 then minInt64 else last.stop + 1) ∧
      c.stop = (if 0 ≤ last.stop ∧ last.stop < maxInt64 then last.stop else -1) := by
  obtain ⟨rets, hrun, _⟩ := run_fresh_front pkg addr ts name ops (le_of_eq hops)
  obtain ⟨start, stream, line, column, hs, _, _, _, hnt⟩ :=
    NextToken_fresh pkg
      { tokens := ts, eof := none, idx := (countNext ops : Nat), Name := name,
        Factory := lastFactory pkg.CommonTokenFactoryDEFAULT ops, self := addr,
        created := [] }
      (by simp only [len, hops]; exact le_refl _) rfl
  rw [eofStart_last _ last hlast, if_pos hstop] at hs
  have hstart : start = goAdd last.stop 1 := by
    injection hs with h; exact h.symm
  obtain ⟨hlo, hhi⟩ := hint
  unfold minInt64 at hlo
  unfold maxInt64 at hhi
  have hval : goAdd last.stop 1 =
      (if last.stop = maxInt64 then minInt64 else last.stop + 1) := by
    unfold goAdd wrapInt maxInt64 minInt64
    split <;> omega
  refine ⟨rets, _, _, _, _, hrun, rfl, hnt, rfl, rfl, rfl, ?_, ?_⟩
  · show start = _
    rw [hstart, hval]
  · show eofStop start = _
    rw [hstart, hval]
    unfold eofStop goSub wrapInt maxInt64 minInt64
    split <;> split <;> split <;> omega

/-- Scenario A of the specification as an instance of C3 (amended): the last
token stops at 6 and the end-of-stream token is created with start 7 and
stop 6. -/
theorem eof_span_after_last_stop_scenarioA :
    (scenarioA.getLast? = some (mkTok 2 "bar" 4 6 1 4) ∧
      (mkTok 2 "bar" 4 6 1 4).stop ≠ -1 ∧
      FitsInt64 (mkTok 2 "bar" 4 6 1 4).stop ∧
      countNext [Op.NextToken, Op.NextToken] = scenarioA.length) ∧
    (∃ rets s1 e c s2,
      run demoPackage (NewListTokenSource demoPackage 9 scenarioA "unit")
        [Op.NextToken, Op.NextToken] = Result.ok (rets, s1) ∧
      s1.created = [] ∧
      NextToken demoPackage s1 = Result.ok (some e, s2) ∧
      s2.eof = some e ∧ s2.created = [c] ∧
      e = c.factory.Create c.pair c.ttype c.text c.channel c.start c.stop c.line c.column ∧
      c.start = (if (mkTok 2 "bar" 4 6 1 4).stop = maxInt64 then minInt64
        else (mkTok 2 "bar" 4 6 1 4).stop + 1) ∧
      c.stop = (if 0 ≤ (mkTok 2 "bar" 4 6 1 4).stop ∧
          (mkTok 2 "bar" 4 6 1 4).stop < maxInt64 then (mkTok 2 "bar" 4 6 1 4).stop
        else -1)) ∧
    (run demoPackage (NewListTokenSource demoPackage 9 scenarioA "unit")
        [Op.NextToken, Op.NextToken, Op.NextToken]).map (fun r => createdSpans r.2) =
      Result.ok [(7, 6, 1, 3)] :=
  ⟨⟨by decide, by decide, by decide, by decide⟩,
    eof_span_after_last_stop demoPackage 9 scenarioA "unit" [Op.NextToken, Op.NextToken]
      (mkTok 2 "bar" 4 6 1 4) (by decide) (by decide) (by decide) (by decide),
    by decide⟩

/-- C4: when the list is empty or its last token has stop offset `-1`, the
first `NextToken` call made after the list is used up creates the
end-of-stream token by one `Create` call with start `-1` and stop `-1`. -/
theorem eof_span_unknown (pkg : Package) (addr : SourceRef) (ts : List Token)
    (name : String) (ops : List Op)
    (hlast : ts = [] ∨ ∃ last, ts.getLast? = some last ∧ last.stop = -1)
    (hops : countNext ops = ts.length) :
    ∃ rets s1 e c s2,
      run pkg (NewListTokenSource pkg addr ts name) ops = Result.ok (rets, s1) ∧
      s1.created = [] ∧
      NextToken pkg s1 = Result.ok (some e, s2) ∧
      s2.eof = some e ∧ s2.created = [c] ∧
      e = c.factory.Create c.pair c.ttype c.text c.channel c.start c.stop c.line c.column ∧
      c.start = -1 ∧ c.stop = -1 := by
  obtain ⟨rets, hrun, _⟩ := run_fresh_front pkg addr ts name ops (le_of_eq hops)
  obtain ⟨start, stream, line, column, hs, _, _, _, hnt⟩ :=
    NextToken_fresh pkg
      { tokens := ts, eof := none, idx := (countNext ops : Nat), Name := name,
        Factory := lastFactory pkg.CommonTokenFactoryDEFAULT ops, self := addr,
        created := [] }
      (by simp only [len, hops]; exact le_refl _) rfl
  have hstart : start = -1 := by
    rcases hlast with hnil | ⟨last, hl, hstop⟩
    · rw [eofStart_nil _ hnil] at hs
      injection hs with h; exact h.symm
    · rw [eofStart_last _ last hl, if_neg (by rw [hstop]; decide)] at hs
      injection hs with h; exact h.symm
  refine ⟨rets, _, _, _, _, hrun, rfl, hnt, rfl, rfl, rfl, hstart, ?_⟩
  simp only [eofStop, hstart]
  decide

/-- An instance of C4: a list whose only token has stop offset `-1`; the
end-of-stream token is created with start `-1` and stop `-1`. -/
theorem eof_span_unknown_stop_sentinel :
    (([mkTok 1 "x" 0 (-1) 1 0] = [] ∨
        ∃ last, [mkTok 1 "x" 0 (-1) 1 0].getLast? = some last ∧ last.stop = -1) ∧
      countNext [Op.NextToken] = [mkTok 1 "x" 0 (-1) 1 0].length) ∧
    (∃ rets s1 e c s2,
      run demoPackage (NewListTokenSource demoPackage 9 [mkTok 1 "x" 0 (-1) 1 0] "u")
        [Op.NextToken] = Result.ok (rets, s1) ∧
      s1.created = [] ∧
      NextToken demoPackage s1 = Result.ok (some e, s2) ∧
      s2.eof = some e ∧ s2.created = [c] ∧
      e = c.factory.Create c.pair c.ttype c.text c.channel c.start c.stop c.line c.column ∧
      c.start = -1 ∧ c.stop = -1) ∧
    (run demoPackage (NewListTokenSource demoPackage 9 [mkTok 1 "x" 0 (-1) 1 0] "u")
        [Op.NextToken, Op.NextToken]).map (fun r => createdSpans r.2) =
      Result.ok [(-1, -1, 1, 1)] :=
  ⟨⟨Or.inr ⟨mkTok 1 "x" 0 (-1) 1 0, rfl, rfl⟩, rfl⟩,
    eof_span_unknown demoPackage 9 [mkTok 1 "x" 0 (-1) 1 0] "u" [Op.NextToken]
      (Or.inr ⟨mkTok 1 "x" 0 (-1) 1 0, rfl, rfl⟩) rfl,
    by decide⟩

/-- C5: the first `NextToken` call made after the list is used up returns and
caches the result of one `Create` call on the factory then held in `Factory`
(the default factory, or the argument of the last `setTokenFactory`), with the
pair of this source and the value of `GetInputStream`, the type `TokenEOF`,
the text "EOF", the channel `TokenDefaultChannel`, the computed start and stop,
and the values of `GetLine` and `GetCharPositionInLine`, all three getters
evaluated in the state in which no end-of-stream token exists yet. -/
theorem eof_token_is_created_by_factory (pkg : Package) (addr : SourceRef)
    (ts : List Token) (name : String) (ops : List Op)
    (hops : countNext ops = ts.length) :
    ∃ rets s1 stream line column start s2,
      run pkg (NewListTokenSource pkg addr ts name) ops = Result.ok (rets, s1) ∧
      s1.eof = none ∧ s1.created = [] ∧ s1.self = addr ∧
      s1.Factory = lastFactory pkg.CommonTokenFactoryDEFAULT ops ∧
      GetInputStream s1 = Result.ok stream ∧
      GetLine s1 = Result.ok line ∧
      GetCharPositionInLine s1 = Result.ok column ∧
      eofStart s1 = Result.ok start ∧
      NextToken pkg s1 = Result.ok
        (some (s1.Factory.Create ⟨addr, stream⟩ pkg.TokenEOF "EOF"
          pkg.TokenDefaultChannel start (eofStop start) line column), s2) ∧
      s2.eof = some (s1.Factory.Create ⟨addr, stream⟩ pkg.TokenEOF "EOF"
          pkg.TokenDefaultChannel start (eofStop start) line column) ∧
      s2.created = [⟨s1.Factory, ⟨addr, stream⟩, pkg.TokenEOF, "EOF",
          pkg.TokenDefaultChannel, start, eofStop start, line, column⟩] := by
  obtain ⟨rets, hrun, _⟩ := run_fresh_front pkg addr ts name ops (le_of_eq hops)
  obtain ⟨start, stream, line, column, hs, hst, hl, hc, hnt⟩ :=
    NextToken_fresh pkg
      { tokens := ts, eof := none, idx := (countNext ops : Nat), Name := name,
        Factory := lastFactory pkg.CommonTokenFactoryDEFAULT ops, self := addr,
        created := [] }
      (by simp only [len, hops]; exact le_refl _) rfl
  exact ⟨rets, _, stream, line, column, start, _, hrun, rfl, rfl, rfl, rfl, hst, hl, hc, hs,
    hnt, rfl, rfl⟩

/-- An instance of C5: the factory is replaced after the first token of
scenario A; the end-of-stream token is created by the replacement (its
identity is 200), from the stream of the last token. -/
theorem eof_token_is_created_by_factory_replaced :
    countNext [Op.NextToken, Op.setTokenFactory (storingFactory 200), Op.NextToken] =
      scenarioA.length ∧
    (∃ rets s1 stream line column start s2,
      run demoPackage (NewListTokenSource demoPackage 9 scenarioA "unit")
        [Op.NextToken, Op.setTokenFactory (storingFactory 200), Op.NextToken] =
        Result.ok (rets, s1) ∧
      s1.eof = none ∧ s1.created = [] ∧ s1.self = 9 ∧
      s1.Factory = lastFactory demoPackage.CommonTokenFactoryDEFAULT
        [Op.NextToken, Op.setTokenFactory (storingFactory 200), Op.NextToken] ∧
      GetInputStream s1 = Result.ok stream ∧
      GetLine s1 = Result.ok line ∧
      GetCharPositionInLine s1 = Result.ok column ∧
      eofStart s1 = Result.ok start ∧
      NextToken demoPackage s1 = Result.ok
        (some (s1.Factory.Create ⟨9, stream⟩ demoPackage.TokenEOF "EOF"
          demoPackage.TokenDefaultChannel start (eofStop start) line column), s2) ∧
      s2.eof = some (s1.Factory.Create ⟨9, stream⟩ demoPackage.TokenEOF "EOF"
          demoPackage.TokenDefaultChannel start (eofStop start) line column) ∧
      s2.created = [⟨s1.Factory, ⟨9, stream⟩, demoPackage.TokenEOF, "EOF",
          demoPackage.TokenDefaultChannel, start, eofStop start, line, column⟩]) ∧
    (run demoPackage (NewListTokenSource demoPackage 9 scenarioA "unit")
        [Op.NextToken, Op.setTokenFactory (storingFactory 200), Op.NextToken,
          Op.NextToken]).map (fun r => (nextResults r.1).drop 2) =
      Result.ok
        [some { ref := 200, tokenType := -1, channel := 0, text := "EOF", start := 7,
                stop := 6, line := 1, column := 3, source := some 9,
                stream := CharStream.stream 7 }] :=
  ⟨rfl,
    eof_token_is_created_by_factory demoPackage 9 scenarioA "unit"
      [Op.NextToken, Op.setTokenFactory (storingFactory 200), Op.NextToken] rfl,
    by decide⟩

/-- C6 fails as stated: for a single consumed token on line `math.MaxInt64`
whose text "a\nb" has one newline, with no end-of-stream token created yet,
`GetLine` returns `math.MinInt64` (the Go `int` sum wraps around), not the last
token's line plus the number of newlines, `2^63`. -/
theorem GetLine_wraps_at_max_line :
    (run demoPackage (NewListTokenSource demoPackage 9 maxLine "m") [Op.NextToken]).map
        (fun r => (r.2.eof, r.2.idx, GetLine r.2, GetLine_spec r.2)) =
      Result.ok (none, 1, Result.ok (-9223372036854775808),
        Result.ok 9223372036854775808) := by
  decide

/-- C6, amended: in every state `GetLine` is the line of `tokens[idx]` when
`idx < len(tokens)`, else the line of the cached end-of-stream token when there
is one, else `-1` when the list is empty, else the last token's line plus the
number of newline characters in its text, taken in Go `int` arithmetic
(reduced to 64 bits).  Whenever that sum is itself a Go `int`, the result is
the exact sum, as the specification describes it.  In scenario C (one token,
text "a\nb", line 1) the value after the token is consumed, with no
end-of-stream token created yet, is 2. -/
theorem GetLine_matches_spec (s : ListTokenSource) :
    GetLine s = GetLine_spec64 s ∧
    ((∀ last, s.tokens.getLast? = some last →
        FitsInt64 (last.line + ((last.text.data.filter fun c => c = '\n').length : Nat))) →
      GetLine s = GetLine_spec s) ∧
    (run demoPackage (NewListTokenSource demoPackage 9 scenarioC "c") [Op.NextToken]).map
        (fun r => (r.2.eof, r.2.idx, GetLine r.2)) =
      Result.ok (none, 1, Result.ok 2) := by
  refine ⟨GetLine_eq_spec64 s, fun hfit => ?_, by decide⟩
  rw [GetLine_eq_spec64]
  unfold GetLine_spec64 GetLine_spec
  by_cases h : s.idx < len s.tokens
  · simp only [if_pos h]
  · simp only [if_neg h]
    cases s.eof with
    | some e => rfl
    | none =>
      cases hl : s.tokens.getLast? with
      | none => rfl
      | some last =>
        show Result.ok (wrapInt _) = Result.ok _
        rw [wrapInt_of_fits _ (hfit last hl)]

/-- Scenario C as an instance of C6 (amended): the sum `1 + 1` is a Go `int`,
and `GetLine` is the value the specification describes. -/
theorem GetLine_matches_spec_scenarioC :
    (∀ last,
      scenarioCConsumed.tokens.getLast? = some last →
      FitsInt64 (last.line + ((last.text.data.filter fun c => c = '\n').length : Nat))) ∧
    GetLine scenarioCConsumed =
      GetLine_spec scenarioCConsumed ∧
    GetLine_spec scenarioCConsumed =
      Result.ok 2 :=
  have hfit : ∀ last,
      scenarioCConsumed.tokens.getLast? = some last →
      FitsInt64 (last.line + ((last.text.data.filter fun c => c = '\n').length : Nat)) := by
    intro last hl
    have he : last = mkTok 1 "a\nb" 0 2 1 0 := by
      injection hl with h; exact h.symm
    subst he
    decide
  ⟨hfit, (GetLine_matches_spec scenarioCConsumed).2.1 hfit, by decide⟩

/-- C7 fails as stated: for a single consumed token with column 0, start
`math.MinInt64`, stop `math.MaxInt64` and the text "a\nb", with no
end-of-stream token created yet, `GetCharPositionInLine` returns 0 (the Go
`int` arithmetic wraps around), not `column + (stop - start + 1)`, `2^64`. -/
theorem GetCharPositionInLine_wraps_at_full_span :
    (run demoPackage (NewListTokenSource demoPackage 9 fullSpan "f") [Op.NextToken]).map
        (fun r => (r.2.eof, r.2.idx, GetCharPositionInLine r.2,
          GetCharPositionInLine_spec r.2)) =
      Result.ok (none, 1, Result.ok 0, Result.ok 18446744073709551616) := by
  decide

/-- C7, amended: in every state `GetCharPositionInLine` is the column of
`tokens[idx]` when `idx < len(tokens)`, else the column of the cached
end-of-stream token when there is one, else `0` when the list is empty, else,
for the last token, the byte length of its text when the text has no newline
and `column + (stop - start + 1)` when it has one, taken in Go `int`
arithmetic (reduced to 64 bits).  Whenever that value is itself a Go `int`,
the result is the exact value, as the specification describes it.  In
scenario C the value after the token is consumed is `0 + (2 - 0 + 1) = 3`;
after the two tokens of scenario A it is the length of "bar", 3. -/
theorem GetCharPositionInLine_matches_spec (s : ListTokenSource) :
    GetCharPositionInLine s = GetCharPositionInLine_spec64 s ∧
    ((∀ last, s.tokens.getLast? = some last →
        FitsInt64 (if '\n' ∈ last.text.data
          then last.column + (last.stop - last.start + 1)
          else ((last.text.utf8ByteSize : Nat) : Int))) →
      GetCharPositionInLine s = GetCharPositionInLine_spec s) ∧
    (run demoPackage (NewListTokenSource demoPackage 9 scenarioC "c") [Op.NextToken]).map
        (fun r => (r.2.eof, r.2.idx, GetCharPositionInLine r.2)) =
      Result.ok (none, 1, Result.ok 3) ∧
    (run demoPackage (NewListTokenSource demoPackage 9 scenarioA "unit")
        [Op.NextToken, Op.NextToken]).map
        (fun r => (r.2.eof, r.2.idx, GetCharPositionInLine r.2)) =
      Result.ok (none, 2, Result.ok 3) := by
  refine ⟨GetCharPositionInLine_eq_spec64 s, fun hfit => ?_, by decide, by decide⟩
  rw [GetCharPositionInLine_eq_spec64]
  unfold GetCharPositionInLine_spec64 GetCharPositionInLine_spec
  by_cases h : s.idx < len s.tokens
  · simp only [if_pos h]
  · simp only [if_neg h]
    cases s.eof with
    | some e => rfl
    | none =>
      cases hl : s.tokens.getLast? with
      | none => rfl
      | some last =>
        have hf := hfit last hl
        by_cases hm : '\n' ∈ last.text.data
        · rw [if_pos hm] at hf
          simp only [if_pos hm]
          rw [wrapInt_of_fits _ hf]
        · rw [if_neg hm] at hf
          simp only [if_neg hm]
          rw [wrapInt_of_fits _ hf]

/-- Scenario C as an instance of C7 (amended): `0 + (2 - 0 + 1)` is a Go
`int`, and `GetCharPositionInLine` is the value the specification describes. -/
theorem GetCharPositionInLine_matches_spec_scenarioC :
    (∀ last,
      scenarioCConsumed.tokens.getLast? = some last →
      FitsInt64 (if '\n' ∈ last.text.data
        then last.column + (last.stop - last.start + 1)
        else ((last.text.utf8ByteSize : Nat) : Int))) ∧
    GetCharPositionInLine scenarioCConsumed =
      GetCharPositionInLine_spec scenarioCConsumed ∧
    GetCharPositionInLine_spec scenarioCConsumed =
      Result.ok 3 :=
  have hfit : ∀ last,
      scenarioCConsumed.tokens.getLast? = some last →
      FitsInt64 (if '\n' ∈ last.text.data
        then last.column + (last.stop - last.start + 1)
        else ((last.text.utf8ByteSize : Nat) : Int)) := by
    intro last hl
    have he : last = mkTok 1 "a\nb" 0 2 1 0 := by
      injection hl with h; exact h.symm
    subst he
    decide
  ⟨hfit, (GetCharPositionInLine_matches_spec scenarioCConsumed).2.1 hfit, by decide⟩

/-- C8: in every state `GetInputStream` is the stream of `tokens[idx]` when
`idx < len(tokens)`, else the stream of the cached end-of-stream token when
there is one, else the stream of the last token when the list is not empty,
else nil.  Unless the cursor is negative, either the list is empty, no
end-of-stream token is cached and the result is nil, or the result is the
stream of a token of the list or of the cached end-of-stream token. -/
theorem GetInputStream_matches_spec (s : ListTokenSource) :
    GetInputStream s = GetInputStream_spec s ∧
    (s.idx < 0 ∨
      (s.tokens = [] ∧ s.eof = none ∧ GetInputStream s = Result.ok CharStream.nil) ∨
      ∃ t, (t ∈ s.tokens ∨ s.eof = some t) ∧ GetInputStream s = Result.ok t.stream) := by
  refine ⟨GetInputStream_eq_spec s, ?_⟩
  by_cases h0 : s.idx < 0
  · exact Or.inl h0
  right
  by_cases h : s.idx < len s.tokens
  · obtain ⟨t, ht, hget⟩ := index_eq_ok s.tokens s.idx (by omega) h
    right
    refine ⟨t, Or.inl (List.getElem?_mem hget), ?_⟩
    unfold GetInputStream
    rw [if_pos h, ht]
    rfl
  · rw [GetInputStream_eq_spec]
    unfold GetInputStream_spec
    rw [if_neg h]
    cases he : s.eof with
    | some e => exact Or.inr ⟨e, Or.inr rfl, rfl⟩
    | none =>
      cases hl : s.tokens.getLast? with
      | none => exact Or.inl ⟨List.getLast?_eq_none_iff.mp hl, rfl, rfl⟩
      | some last => exact Or.inr ⟨last, Or.inl (List.mem_of_getLast?_eq_some hl), rfl⟩

/-- C9: on a source freshly built by `NewListTokenSource`, before any call of
`NextToken`: for a list that is not empty `GetLine` and `GetCharPositionInLine`
are the line and column of the first token; for the empty list they are `-1`
and `0`, and the first `NextToken` call creates the end-of-stream token by a
`Create` call of the default factory with start `-1`, stop `-1`, line `-1` and
column `0`. -/
theorem fresh_source_position (pkg : Package) (addr : SourceRef) (name : String) :
    (∀ (t : Token) (ts : List Token),
      GetLine (NewListTokenSource pkg addr (t :: ts) name) = Result.ok t.line ∧
      GetCharPositionInLine (NewListTokenSource pkg addr (t :: ts) name) =
        Result.ok t.column) ∧
    GetLine (NewListTokenSource pkg addr [] name) = Result.ok (-1) ∧
    GetCharPositionInLine (NewListTokenSource pkg addr [] name) = Result.ok 0 ∧
    ∃ s2, NextToken pkg (NewListTokenSource pkg addr [] name) =
        Result.ok (some (pkg.CommonTokenFactoryDEFAULT.Create ⟨addr, CharStream.nil⟩
          pkg.TokenEOF "EOF" pkg.TokenDefaultChannel (-1) (-1) (-1) 0), s2) ∧
      s2.eof = some (pkg.CommonTokenFactoryDEFAULT.Create ⟨addr, CharStream.nil⟩
          pkg.TokenEOF "EOF" pkg.TokenDefaultChannel (-1) (-1) (-1) 0) ∧
      s2.created = [⟨pkg.CommonTokenFactoryDEFAULT, ⟨addr, CharStream.nil⟩, pkg.TokenEOF,
          "EOF", pkg.TokenDefaultChannel, -1, -1, -1, 0⟩] := by
  refine ⟨fun t ts => ?_, rfl, rfl, _, rfl, rfl, rfl⟩
  have hpos : (0 : Int) < len (t :: ts) := by
    unfold len; simp only [List.length_cons]; omega
  have hidx : index (t :: ts) 0 = Result.ok t := by
    unfold index
    rw [if_neg (by decide)]
    simp only [Int.toNat_zero, List.getElem?_cons_zero]
  constructor
  · unfold GetLine
    simp only [NewListTokenSource]
    rw [if_pos hpos, hidx]; rfl
  · unfold GetCharPositionInLine
    simp only [NewListTokenSource]
    rw [if_pos hpos, hidx]; rfl

/-- C10: for every token list `ts`, every default factory and every sequence
of method calls with more than `len(ts)` calls of `NextToken` (so with any
factories set in between), the `(len(ts)+1)`-th `NextToken` call returned a
token `e`, and afterwards `GetLine` is the line of `e` and
`GetCharPositionInLine` is the column of `e`; this still holds after any
further sequence of method calls. -/
theorem position_after_eof (pkg : Package) (addr : SourceRef) (ts : List Token)
    (name : String) (ops more : List Op) (hops : ts.length < countNext ops) :
    ∃ rets s1 e,
      run pkg (NewListTokenSource pkg addr ts name) ops = Result.ok (rets, s1) ∧
      (nextResults rets)[ts.length]? = some (some e) ∧
      s1.eof = some e ∧
      GetLine s1 = Result.ok e.line ∧
      GetCharPositionInLine s1 = Result.ok e.column ∧
      ∃ rets2 s3, run pkg s1 more = Result.ok (rets2, s3) ∧
        s3.eof = some e ∧
        GetLine s3 = Result.ok e.line ∧
        GetCharPositionInLine s3 = Result.ok e.column := by
  obtain ⟨rets, s1, hrun, htok, _, _, _, hidx, hres, _, _, hgt⟩ :=
    run_char pkg ops (NewListTokenSource pkg addr ts name) ⟨le_refl _, len_nonneg ts⟩
  simp only [NewListTokenSource, Int.toNat_zero, List.drop_zero, Nat.sub_zero] at htok hidx hres hgt
  obtain ⟨e, he⟩ := hgt (by unfold len; omega)
  have hidx1 : s1.idx = len s1.tokens := by
    rw [hidx, htok]; unfold len; omega
  have hin1 : CursorInRange s1 := ⟨by rw [hidx1]; exact len_nonneg _, le_of_eq hidx1⟩
  obtain ⟨rets2, s3, hrun3, htok3, _, _, _, hidx3, _, hkeep3, _, _⟩ :=
    run_char pkg more s1 hin1
  obtain ⟨he3, _⟩ := hkeep3 e he
  have hge3 : len s3.tokens ≤ s3.idx := by
    rw [hidx3, htok3, hidx1]; omega
  refine ⟨rets, s1, e, hrun, ?_, he, GetLine_cached s1 e (le_of_eq hidx1.symm) he,
    GetCharPositionInLine_cached s1 e (le_of_eq hidx1.symm) he,
    rets2, s3, hrun3, he3, GetLine_cached s3 e hge3 he3,
    GetCharPositionInLine_cached s3 e hge3 he3⟩
  rw [hres, List.take_of_length_le (by omega : ts.length ≤ countNext ops)]
  rw [List.getElem?_append_right (by rw [List.length_map])]
  rw [List.length_map, Nat.sub_self, he]
  obtain ⟨m, hm⟩ : ∃ m, countNext ops - ts.length = m + 1 := ⟨countNext ops - ts.length - 1, by omega⟩
  rw [hm, List.replicate_succ]
  exact List.getElem?_cons_zero

/-- Scenario A as an instance of C10: after three `NextToken` calls the
position is that of the end-of-stream token (line 1, column 3), and it still
is after the factory is replaced and `NextToken` is called again. -/
theorem position_after_eof_scenarioA :
    scenarioA.length < countNext [Op.NextToken, Op.NextToken, Op.GetLine, Op.NextToken] ∧
    (∃ rets s1 e,
      run demoPackage (NewListTokenSource demoPackage 9 scenarioA "unit")
        [Op.NextToken, Op.NextToken, Op.GetLine, Op.NextToken] = Result.ok (rets, s1) ∧
      (nextResults rets)[scenarioA.length]? = some (some e) ∧
      s1.eof = some e ∧
      GetLine s1 = Result.ok e.line ∧
      GetCharPositionInLine s1 = Result.ok e.column ∧
      ∃ rets2 s3, run demoPackage s1
          [Op.setTokenFactory (storingFactory 200), Op.NextToken, Op.Skip] =
          Result.ok (rets2, s3) ∧
        s3.eof = some e ∧
        GetLine s3 = Result.ok e.line ∧
        GetCharPositionInLine s3 = Result.ok e.column) ∧
    (run demoPackage (NewListTokenSource demoPackage 9 scenarioA "unit")
        [Op.NextToken, Op.NextToken, Op.GetLine, Op.NextToken,
          Op.setTokenFactory (storingFactory 200), Op.NextToken, Op.Skip]).map
        (fun r => (r.2.eof.map fun e => (e.ref, e.line, e.column),
          GetLine r.2, GetCharPositionInLine r.2)) =
      Result.ok (some (100, 1, 3), Result.ok 1, Result.ok 3) :=
  ⟨by decide,
    position_after_eof demoPackage 9 scenarioA "unit"
      [Op.NextToken, Op.NextToken, Op.GetLine, Op.NextToken]
      [Op.setTokenFactory (storingFactory 200), Op.NextToken, Op.Skip] (by decide),
    by decide⟩

/-! ### Further facts about sequences of calls -/

theorem run_append (pkg : Package) (a b : List Op) :
    ∀ s : ListTokenSource, run pkg s (a ++ b) =
      (run pkg s a).bind fun r1 =>
        (run pkg r1.2 b).map fun r2 => (r1.1 ++ r2.1, r2.2) := by
  induction a with
  | nil =>
    intro s
    simp only [List.nil_append, run, Result.bind_ok]
    cases run pkg s b <;> rfl
  | cons op rest ih =>
    intro s
    show run pkg s (op :: (rest ++ b)) = _
    simp only [run]
    cases hc : call pkg s op with
    | panic => rfl
    | ok r =>
      simp only [Result.bind_ok]
      rw [ih r.2]
      cases run pkg r.2 rest with
      | panic => rfl
      | ok r1 =>
        simp only [Result.bind_ok, Result.map_ok]
        cases run pkg r1.2 b <;> rfl

theorem NextToken_fresh_call (pkg : Package) (s : ListTokenSource)
    (h : len s.tokens ≤ s.idx) (he : s.eof = none) :
    ∃ c : CreateCall, c.factory = s.Factory ∧
      NextToken pkg s = Result.ok
        (some c.result, { s with eof := some c.result, created := s.created ++ [c] }) := by
  obtain ⟨start, stream, line, column, _, _, _, _, hnt⟩ := NextToken_fresh pkg s h he
  exact ⟨⟨s.Factory, ⟨s.self, stream⟩, pkg.TokenEOF, "EOF", pkg.TokenDefaultChannel,
    start, eofStop start, line, column⟩, rfl, hnt⟩

/-- Once the calls of a sequence outnumber the tokens left, exactly one
`Create` call has been added to the record, and its result is cached. -/
theorem run_created (pkg : Package) (ops : List Op) :
    ∀ s : ListTokenSource, CursorInRange s → s.eof = none →
      len s.tokens < s.idx + countNext ops →
      ∃ rets s1 c, run pkg s ops = Result.ok (rets, s1) ∧
        s1.created = s.created ++ [c] ∧ s1.eof = some c.result := by
  induction ops with
  | nil =>
    intro s hinv _ hlt
    obtain ⟨_, h1⟩ := hinv
    simp only [countNext] at hlt
    omega
  | cons op rest ih =>
    intro s hinv he hlt
    obtain ⟨h0, h1⟩ := hinv
    by_cases hop : op = Op.NextToken
    · subst hop
      simp only [countNext] at hlt
      push_cast at hlt
      by_cases hin : s.idx < len s.tokens
      · obtain ⟨t, _, hnt⟩ := NextToken_inBounds pkg s h0 hin
        obtain ⟨rets, s1, c, hrun, hcr, heof⟩ :=
          ih { s with idx := s.idx + 1 } ⟨by simp only; omega, by simp only; omega⟩ he
            (by simp only; omega)
        exact ⟨Ret.token (some t) :: rets, s1, c,
          by simp only [run, call, hnt, Result.map_ok, Result.bind_ok, hrun], hcr, heof⟩
      · obtain ⟨c, _, hnt⟩ := NextToken_fresh_call pkg s (by omega) he
        obtain ⟨rets, s1, hrun, _, _, _, _, _, _, hkeep, _, _⟩ :=
          run_char pkg rest { s with eof := some c.result, created := s.created ++ [c] }
            ⟨h0, h1⟩
        obtain ⟨heof, hcr⟩ := hkeep c.result rfl
        exact ⟨Ret.token (some c.result) :: rets, s1, c,
          by simp only [run, call, hnt, Result.map_ok, Result.bind_ok, hrun], hcr, heof⟩
    · obtain ⟨r, hcall, _⟩ := call_other pkg s op hop h0
      rw [countNext_cons_other _ _ hop] at hlt
      obtain ⟨rets, s1, c, hrun, hcr, heof⟩ :=
        ih { s with Factory := lastFactory s.Factory [op] } ⟨h0, h1⟩ he hlt
      exact ⟨r :: rets, s1, c,
        by simp only [run, hcall, Result.map_ok, Result.bind_ok, hrun], hcr, heof⟩

theorem makeEOFToken_ok (pkg : Package) (s : ListTokenSource) (h0 : 0 ≤ s.idx) :
    ∃ s1, makeEOFToken pkg s = Result.ok s1 := by
  unfold makeEOFToken
  cases he : s.eof with
  | some e => exact ⟨s, rfl⟩
  | none =>
    obtain ⟨start, hs⟩ := eofStart_total s
    obtain ⟨stream, hst⟩ := GetInputStream_ok s h0
    obtain ⟨line, hl⟩ := GetLine_ok s h0
    obtain ⟨column, hc⟩ := GetCharPositionInLine_ok s h0
    simp only [hs, hst, hl, hc, Result.bind_ok]
    exact ⟨_, rfl⟩

theorem NextToken_ok (pkg : Package) (s : ListTokenSource) (hinv : CursorInRange s) :
    ∃ t s1, NextToken pkg s = Result.ok (some t, s1) := by
  obtain ⟨h0, h1⟩ := hinv
  by_cases hin : s.idx < len s.tokens
  · obtain ⟨t, _, hnt⟩ := NextToken_inBounds pkg s h0 hin
    exact ⟨t, _, hnt⟩
  · cases he : s.eof with
    | some e => exact ⟨e, s, NextToken_cached pkg s e (by omega) he⟩
    | none =>
      obtain ⟨c, _, hnt⟩ := NextToken_fresh_call pkg s (by omega) he
      exact ⟨_, _, hnt⟩

/-! ## Further properties stated by the specification -/

/-- C11: `Skip` and `More` are no-ops.  In every state each returns the state
unchanged (so `tokens`, `idx`, `eof`, `Name` and `Factory` are unchanged), and
a call of either placed anywhere in a sequence of method calls leaves the
values returned by the calls before and after it, and the final state, the
same as in the sequence without it. -/
theorem Skip_and_More_are_noops (pkg : Package) (s : ListTokenSource) :
    Skip s = s ∧ More s = s ∧
    call pkg s Op.Skip = Result.ok (Ret.unit, s) ∧
    call pkg s Op.More = Result.ok (Ret.unit, s) ∧
    ∀ a b : List Op,
      run pkg s (a ++ b) =
        ((run pkg s a).bind fun r1 =>
          (run pkg r1.2 b).map fun r2 => (r1.1 ++ r2.1, r2.2)) ∧
      run pkg s (a ++ Op.Skip :: b) =
        ((run pkg s a).bind fun r1 =>
          (run pkg r1.2 b).map fun r2 => (r1.1 ++ Ret.unit :: r2.1, r2.2)) ∧
      run pkg s (a ++ Op.More :: b) =
        ((run pkg s a).bind fun r1 =>
          (run pkg r1.2 b).map fun r2 => (r1.1 ++ Ret.unit :: r2.1, r2.2)) := by
  refine ⟨rfl, rfl, rfl, rfl, fun a b => ⟨run_append pkg a b s, ?_, ?_⟩⟩
  · rw [run_append]
    cases run pkg s a with
    | panic => rfl
    | ok r1 =>
      simp only [Result.bind_ok, run, call, Skip]
      cases run pkg r1.2 b <;> rfl
  · rw [run_append]
    cases run pkg s a with
    | panic => rfl
    | ok r1 =>
      simp only [Result.bind_ok, run, call, More]
      cases run pkg r1.2 b <;> rfl

/-- C12: `GetSourceName` on the source built by `NewListTokenSource ts name`
returns `name`, and it still returns `name` in the state reached by any
sequence of method calls. -/
theorem GetSourceName_is_constant (pkg : Package) (addr : SourceRef) (ts : List Token)
    (name : String) (ops : List Op) :
    GetSourceName (NewListTokenSource pkg addr ts name) = name ∧
    ∃ rets s1, run pkg (NewListTokenSource pkg addr ts name) ops = Result.ok (rets, s1) ∧
      GetSourceName s1 = name ∧
      call pkg s1 Op.GetSourceName = Result.ok (Ret.string name, s1) := by
  obtain ⟨rets, s1, hrun, _, hname, _⟩ :=
    run_char pkg ops (NewListTokenSource pkg addr ts name) ⟨le_refl _, len_nonneg ts⟩
  have hn : GetSourceName s1 = name := hname
  refine ⟨rfl, rets, s1, hrun, hn, ?_⟩
  simp only [call, hn]

/-- C13: all operations are total.  For every token list (the empty list
included) and every sequence of method calls on the source built by
`NewListTokenSource`, no call panics, every `NextToken` call returns a token,
and in the state reached the cursor is within `0 .. len(tokens)`, the slice
accesses `tokens[idx]` (when `idx < len(tokens)`) and `tokens[len(tokens)-1]`
(when the list is not empty) are within bounds, and `NextToken`,
`makeEOFToken`, `GetInputStream`, `GetLine` and `GetCharPositionInLine` all
return. -/
theorem operations_are_total (pkg : Package) (addr : SourceRef) (ts : List Token)
    (name : String) (ops : List Op) :
    ∃ rets s1, run pkg (NewListTokenSource pkg addr ts name) ops = Result.ok (rets, s1) ∧
      (∀ r ∈ nextResults rets, ∃ t, r = some t) ∧
      0 ≤ s1.idx ∧ s1.idx ≤ len s1.tokens ∧
      (s1.idx = len s1.tokens ∨ ∃ t, index s1.tokens s1.idx = Result.ok t) ∧
      (s1.tokens = [] ∨ ∃ t, index s1.tokens (len s1.tokens - 1) = Result.ok t) ∧
      (∃ t s2, NextToken pkg s1 = Result.ok (some t, s2)) ∧
      (∃ s2, makeEOFToken pkg s1 = Result.ok s2) ∧
      (∃ v, GetInputStream s1 = Result.ok v) ∧
      (∃ v, GetLine s1 = Result.ok v) ∧
      (∃ v, GetCharPositionInLine s1 = Result.ok v) := by
  obtain ⟨rets, s1, hrun, htok, _, _, _, hidx, hres, _, _, hgt⟩ :=
    run_char pkg ops (NewListTokenSource pkg addr ts name) ⟨le_refl _, len_nonneg ts⟩
  simp only [NewListTokenSource, Int.toNat_zero, List.drop_zero, Nat.sub_zero] at htok hidx hres hgt
  have h0 : 0 ≤ s1.idx := by
    rw [hidx]; have := len_nonneg ts; omega
  have h1 : s1.idx ≤ len s1.tokens := by
    rw [hidx, htok]; omega
  refine ⟨rets, s1, hrun, ?_, h0, h1, ?_, ?_, NextToken_ok pkg s1 ⟨h0, h1⟩,
    makeEOFToken_ok pkg s1 h0, GetInputStream_ok s1 h0, GetLine_ok s1 h0,
    GetCharPositionInLine_ok s1 h0⟩
  · intro r hr
    rw [hres] at hr
    rcases List.mem_append.mp hr with hm | hm
    · obtain ⟨t, _, rfl⟩ := List.mem_map.mp hm
      exact ⟨t, rfl⟩
    · obtain ⟨hne, rfl⟩ := List.mem_replicate.mp hm
      exact hgt (by unfold len; omega)
  · by_cases he : s1.idx = len s1.tokens
    · exact Or.inl he
    · obtain ⟨t, ht, _⟩ := index_eq_ok s1.tokens s1.idx h0 (by omega)
      exact Or.inr ⟨t, ht⟩
  · cases hl : s1.tokens.getLast? with
    | none => exact Or.inl (List.getLast?_eq_none_iff.mp hl)
    | some last => exact Or.inr ⟨last, index_last _ _ hl⟩

/-- C14: the cursor starts at 0 and never decreases.  From any state reached
on the source built by `NewListTokenSource`, any further sequence of method
calls ends with a cursor at least as large; the cursor is unchanged unless the
sequence has a `NextToken` call; and if the state was exhausted
(`idx ≥ len(tokens)`), the state reached is exhausted too. -/
theorem cursor_never_decreases (pkg : Package) (addr : SourceRef) (ts : List Token)
    (name : String) (ops more : List Op) :
    (NewListTokenSource pkg addr ts name).idx = 0 ∧
    ∃ rets s1 rets2 s3,
      run pkg (NewListTokenSource pkg addr ts name) ops = Result.ok (rets, s1) ∧
      run pkg s1 more = Result.ok (rets2, s3) ∧
      s1.idx ≤ s3.idx ∧
      (0 < countNext more ∨ s3.idx = s1.idx) ∧
      (s1.idx < len s1.tokens ∨ len s3.tokens ≤ s3.idx) := by
  obtain ⟨rets, s1, hrun, htok, _, _, _, hidx, _⟩ :=
    run_char pkg ops (NewListTokenSource pkg addr ts name) ⟨le_refl _, len_nonneg ts⟩
  simp only [NewListTokenSource] at htok hidx
  have h0 : 0 ≤ s1.idx := by
    rw [hidx]; have := len_nonneg ts; omega
  have h1 : s1.idx ≤ len s1.tokens := by
    rw [hidx, htok]; omega
  obtain ⟨rets2, s3, hrun3, htok3, _, _, _, hidx3, _⟩ := run_char pkg more s1 ⟨h0, h1⟩
  refine ⟨rfl, rets, s1, rets2, s3, hrun, hrun3, ?_, ?_, ?_⟩
  · rw [hidx3]; omega
  · by_cases hk : 0 < countNext more
    · exact Or.inl hk
    · right; rw [hidx3]; omega
  · by_cases hin : s1.idx < len s1.tokens
    · exact Or.inl hin
    · right; rw [hidx3, htok3]; omega

/-- C15: the end-of-stream token is made once and lazily.  On the source built
by `NewListTokenSource`: in every state reached with at most `len(ts)` calls
of `NextToken`, `eof` is unset and `Create` has not been called; the
`NextToken` call made after exactly `len(ts)` such calls makes one `Create`
call, on the factory then held, and caches its result; and in every state
reached with more than `len(ts)` calls of `NextToken` exactly one `Create`
call has been made, its result is cached, and any further sequence of method
calls leaves `eof` and the record of `Create` calls unchanged. -/
theorem eof_created_once_lazily (pkg : Package) (addr : SourceRef) (ts : List Token)
    (name : String) (ops more : List Op) :
    ∃ rets s1 rets2 s3,
      run pkg (NewListTokenSource pkg addr ts name) ops = Result.ok (rets, s1) ∧
      run pkg s1 more = Result.ok (rets2, s3) ∧
      ((countNext ops ≤ ts.length ∧ s1.eof = none ∧ s1.created = []) ∨
        (ts.length < countNext ops ∧
          ∃ c : CreateCall, s1.created = [c] ∧ s1.eof = some c.result ∧
            s3.eof = s1.eof ∧ s3.created = s1.created)) ∧
      (countNext ops ≠ ts.length ∨
        ∃ (c : CreateCall) (s2 : ListTokenSource),
          NextToken pkg s1 = Result.ok (some c.result, s2) ∧
          c.factory = s1.Factory ∧ s2.created = [c] ∧ s2.eof = some c.result) := by
  obtain ⟨rets, s1, hrun, htok, _, _, _, hidx, _, _, hle, _⟩ :=
    run_char pkg ops (NewListTokenSource pkg addr ts name) ⟨le_refl _, len_nonneg ts⟩
  simp only [NewListTokenSource] at htok hidx hle
  have h0 : 0 ≤ s1.idx := by
    rw [hidx]; have := len_nonneg ts; omega
  have h1 : s1.idx ≤ len s1.tokens := by
    rw [hidx, htok]; omega
  obtain ⟨rets2, s3, hrun3, _, _, _, _, _, _, hkeep3, _, _⟩ := run_char pkg more s1 ⟨h0, h1⟩
  refine ⟨rets, s1, rets2, s3, hrun, hrun3, ?_, ?_⟩
  · by_cases hk : countNext ops ≤ ts.length
    · exact Or.inl ⟨hk, hle (by unfold len; omega)⟩
    · right
      obtain ⟨rets', s1', c, hrun', hcr, heof⟩ :=
        run_created pkg ops (NewListTokenSource pkg addr ts name)
          ⟨le_refl _, len_nonneg ts⟩ rfl
          (by simp only [NewListTokenSource]; unfold len; omega)
      rw [hrun] at hrun'
      injection hrun' with hpair
      injection hpair with _ hs
      subst hs
      obtain ⟨he3, hc3⟩ := hkeep3 c.result heof
      exact ⟨by omega, c, hcr, heof, by rw [he3, heof], hc3⟩
  · by_cases hk : countNext ops = ts.length
    · right
      obtain ⟨heof, hcr⟩ := hle (by unfold len; omega)
      obtain ⟨c, hfac, hnt⟩ :=
        NextToken_fresh_call pkg s1 (by rw [hidx, htok]; unfold len; omega) heof
      exact ⟨c, _, hnt, hfac, by simp only [hcr, List.nil_append], rfl⟩
    · exact Or.inl hk

/-- C16: the token list is never changed.  In the state reached by any
sequence of method calls on the source built by `NewListTokenSource ts name`,
and after a call of `makeEOFToken` in that state, the field `tokens` is `ts`. -/
theorem tokens_never_mutated (pkg : Package) (addr : SourceRef) (ts : List Token)
    (name : String) (ops : List Op) :
    ∃ rets s1, run pkg (NewListTokenSource pkg addr ts name) ops = Result.ok (rets, s1) ∧
      s1.tokens = ts ∧
      ∃ s2, makeEOFToken pkg s1 = Result.ok s2 ∧ s2.tokens = ts := by
  obtain ⟨rets, s1, hrun, htok, _, _, _, hidx, _⟩ :=
    run_char pkg ops (NewListTokenSource pkg addr ts name) ⟨le_refl _, len_nonneg ts⟩
  simp only [NewListTokenSource] at htok hidx
  have h0 : 0 ≤ s1.idx := by
    rw [hidx]; have := len_nonneg ts; omega
  refine ⟨rets, s1, hrun, htok, ?_⟩
  unfold makeEOFToken
  cases he : s1.eof with
  | some e => exact ⟨s1, rfl, htok⟩
  | none =>
    obtain ⟨start, hs⟩ := eofStart_total s1
    obtain ⟨stream, hst⟩ := GetInputStream_ok s1 h0
    obtain ⟨line, hl⟩ := GetLine_ok s1 h0
    obtain ⟨column, hc⟩ := GetCharPositionInLine_ok s1 h0
    simp only [hs, hst, hl, hc, Result.bind_ok]
    exact ⟨_, rfl, htok⟩

/-- C17: the check `idx == len(tokens) && t.GetTokenType() == TokenEOF` in the
in-bounds branch of `NextToken` is dead.  In every state `NextToken` returns
the same token and the same next state as `NextToken` without the check; and
whenever the in-bounds branch is taken (`idx < len(tokens)`) the condition of
the check is false for every token. -/
theorem NextToken_check_is_dead (pkg : Package) (s : ListTokenSource) :
    NextToken pkg s = NextToken_withoutCheck pkg s ∧
    (len s.tokens ≤ s.idx ∨
      ∀ t : Token, ¬ (s.idx = len s.tokens ∧ t.GetTokenType = pkg.TokenEOF)) := by
  constructor
  · unfold NextToken NextToken_withoutCheck
    by_cases h : s.idx ≥ len s.tokens
    · simp only [if_pos h]
    · simp only [if_neg h]
      cases index s.tokens s.idx with
      | panic => rfl
      | ok t =>
        have hne : ¬ (s.idx = len s.tokens ∧ t.GetTokenType = pkg.TokenEOF) := by
          rintro ⟨e, _⟩; omega
        simp only [Result.bind_ok, if_neg hne]
  · by_cases h : len s.tokens ≤ s.idx
    · exact Or.inl h
    · right
      rintro t ⟨e, _⟩
      omega

/-- C18: in every state reached by a sequence of method calls on the source
built by `NewListTokenSource ts name`, `0 ≤ idx ≤ len(tokens)`, and `idx` is
the minimum of the number of `NextToken` calls made and `len(ts)`. -/
theorem cursor_is_min_of_calls_and_length (pkg : Package) (addr : SourceRef)
    (ts : List Token) (name : String) (ops : List Op) :
    ∃ rets s1, run pkg (NewListTokenSource pkg addr ts name) ops = Result.ok (rets, s1) ∧
      0 ≤ s1.idx ∧ s1.idx ≤ len s1.tokens ∧
      s1.idx = ((min (countNext ops) ts.length : Nat) : Int) := by
  obtain ⟨rets, s1, hrun, htok, _, _, _, hidx, _⟩ :=
    run_char pkg ops (NewListTokenSource pkg addr ts name) ⟨le_refl _, len_nonneg ts⟩
  simp only [NewListTokenSource] at htok hidx
  refine ⟨rets, s1, hrun, ?_, ?_, ?_⟩
  · rw [hidx]; unfold len; omega
  · rw [hidx, htok]; omega
  · rw [hidx]; unfold len; omega

/-- C19: the position queries are stable across the making of the
end-of-stream token.  If the factory held when the list has just been used up
is faithful, then `GetInputStream`, `GetLine` and `GetCharPositionInLine`
return the same values right after the first exhausted `NextToken` call as
right before it. -/
theorem position_stable_across_eof (pkg : Package) (addr : SourceRef) (ts : List Token)
    (name : String) (ops : List Op) (hops : countNext ops = ts.length)
    (hf : Faithful (lastFactory pkg.CommonTokenFactoryDEFAULT ops)) :
    ∃ rets s1 e s2 stream line column,
      run pkg (NewListTokenSource pkg addr ts name) ops = Result.ok (rets, s1) ∧
      s1.eof = none ∧ len s1.tokens ≤ s1.idx ∧
      GetInputStream s1 = Result.ok stream ∧
      GetLine s1 = Result.ok line ∧
      GetCharPositionInLine s1 = Result.ok column ∧
      NextToken pkg s1 = Result.ok (some e, s2) ∧
      s2.eof = some e ∧
      GetInputStream s2 = Result.ok stream ∧
      GetLine s2 = Result.ok line ∧
      GetCharPositionInLine s2 = Result.ok column := by
  obtain ⟨rets, hrun, _⟩ := run_fresh_front pkg addr ts name ops (le_of_eq hops)
  have hge : len ts ≤ ((countNext ops : Nat) : Int) := by
    simp only [len, hops]; exact le_refl _
  obtain ⟨start, stream, line, column, _, hst, hl, hc, hnt⟩ :=
    NextToken_fresh pkg
      { tokens := ts, eof := none, idx := (countNext ops : Nat), Name := name,
        Factory := lastFactory pkg.CommonTokenFactoryDEFAULT ops, self := addr,
        created := [] } hge rfl
  obtain ⟨hfl, hfc, hfs⟩ := hf ⟨addr, stream⟩ pkg.TokenEOF "EOF" pkg.TokenDefaultChannel
    start (eofStop start) line column
  refine ⟨rets, _, _, _, stream, line, column, hrun, rfl, hge, hst, hl, hc, hnt, rfl,
    ?_, ?_, ?_⟩
  · unfold GetInputStream
    simp only [if_neg (not_lt.mpr hge), Token.GetInputStream, hfs]
  · rw [GetLine_cached _ _ hge rfl, hfl]
  · rw [GetCharPositionInLine_cached _ _ hge rfl, hfc]

/-- Scenario C as an instance of C19: with the storing factory, the stream,
line 2 and column 3 reported after the two-line token are reported again once
the end-of-stream token exists. -/
theorem position_stable_across_eof_scenarioC :
    (countNext [Op.NextToken] = scenarioC.length ∧
      Faithful (lastFactory demoPackage.CommonTokenFactoryDEFAULT [Op.NextToken])) ∧
    (∃ rets s1 e s2 stream line column,
      run demoPackage (NewListTokenSource demoPackage 9 scenarioC "c") [Op.NextToken] =
        Result.ok (rets, s1) ∧
      s1.eof = none ∧ len s1.tokens ≤ s1.idx ∧
      GetInputStream s1 = Result.ok stream ∧
      GetLine s1 = Result.ok line ∧
      GetCharPositionInLine s1 = Result.ok column ∧
      NextToken demoPackage s1 = Result.ok (some e, s2) ∧
      s2.eof = some e ∧
      GetInputStream s2 = Result.ok stream ∧
      GetLine s2 = Result.ok line ∧
      GetCharPositionInLine s2 = Result.ok column) ∧
    ((run demoPackage (NewListTokenSource demoPackage 9 scenarioC "c") [Op.NextToken]).map
        (fun r => (GetInputStream r.2, GetLine r.2, GetCharPositionInLine r.2)) =
      Result.ok (Result.ok (CharStream.stream 7), Result.ok 2, Result.ok 3) ∧
     (run demoPackage (NewListTokenSource demoPackage 9 scenarioC "c")
        [Op.NextToken, Op.NextToken]).map
        (fun r => (GetInputStream r.2, GetLine r.2, GetCharPositionInLine r.2)) =
      Result.ok (Result.ok (CharStream.stream 7), Result.ok 2, Result.ok 3)) :=
  ⟨⟨rfl, fun _ _ _ _ _ _ _ _ => ⟨rfl, rfl, rfl⟩⟩,
    position_stable_across_eof demoPackage 9 scenarioC "c" [Op.NextToken] rfl
      (fun _ _ _ _ _ _ _ _ => ⟨rfl, rfl, rfl⟩),
    by decide, by decide⟩

/-- C20: a trailing token of type `TokenEOF` is never adopted as the cached
end-of-stream token.  In every state with `0 ≤ idx < len(tokens)`, `NextToken`
leaves `eof` (and the record of `Create` calls) unchanged.  For a list `ts`
whose last token has type `TokenEOF`, after `len(ts)` calls of `NextToken`,
the last of which returned that token, `eof` is still unset and no `Create`
call has been made, and the next `NextToken` call returns the result of a
`Create` call it makes on the factory then held. -/
theorem trailing_eof_token_not_adopted (pkg : Package) (s : ListTokenSource)
    (addr : SourceRef) (ts : List Token) (name : String) (ops : List Op) (last : Token)
    (hlast : ts.getLast? = some last) (htype : last.GetTokenType = pkg.TokenEOF)
    (hops : countNext ops = ts.length) :
    (s.idx < 0 ∨ len s.tokens ≤ s.idx ∨
      ∃ t s1, NextToken pkg s = Result.ok (some t, s1) ∧ s1.eof = s.eof ∧
        s1.created = s.created) ∧
    ∃ rets s1 c s2,
      run pkg (NewListTokenSource pkg addr ts name) ops = Result.ok (rets, s1) ∧
      (nextResults rets).getLast? = some (some last) ∧
      last.tokenType = pkg.TokenEOF ∧
      s1.eof = none ∧ s1.created = [] ∧
      NextToken pkg s1 = Result.ok (some c.result, s2) ∧
      c.factory = s1.Factory ∧ s2.created = [c] ∧ s2.eof = some c.result := by
  constructor
  · by_cases h0 : s.idx < 0
    · exact Or.inl h0
    by_cases h1 : len s.tokens ≤ s.idx
    · exact Or.inr (Or.inl h1)
    obtain ⟨t, _, hnt⟩ := NextToken_inBounds pkg s (by omega) (by omega)
    exact Or.inr (Or.inr ⟨t, _, hnt, rfl, rfl⟩)
  · obtain ⟨rets, hrun, hres⟩ := run_fresh_front pkg addr ts name ops (le_of_eq hops)
    obtain ⟨c, hfac, hnt⟩ :=
      NextToken_fresh_call pkg
        { tokens := ts, eof := none, idx := (countNext ops : Nat), Name := name,
          Factory := lastFactory pkg.CommonTokenFactoryDEFAULT ops, self := addr,
          created := [] }
        (by simp only [len, hops]; exact le_refl _) rfl
    refine ⟨rets, _, c, _, hrun, ?_, htype, rfl, rfl, hnt, hfac, rfl, rfl⟩
    rw [hres, hops, List.take_length, List.getLast?_map, hlast]
    rfl

/-- An instance of C20: the second token of the list has the type `TokenEOF`;
the third `NextToken` call returns a token made by the factory (identity 100),
not the second token (identity 2). -/
theorem trailing_eof_token_not_adopted_demo :
    (trailingEOF.getLast? = some { mkTok 2 "<EOF>" 3 2 1 3 with tokenType := -1 } ∧
      Token.GetTokenType { mkTok 2 "<EOF>" 3 2 1 3 with tokenType := -1 } =
        demoPackage.TokenEOF ∧
      countNext [Op.NextToken, Op.NextToken] = trailingEOF.length) ∧
    ((({ tokens := trailingEOF, eof := none, idx := 1, Name := "t",
          Factory := storingFactory 100, self := 9, created := [] } :
          ListTokenSource).idx < 0 ∨
        len trailingEOF ≤ 1 ∨
        ∃ t s1, NextToken demoPackage
            { tokens := trailingEOF, eof := none, idx := 1, Name := "t",
              Factory := storingFactory 100, self := 9, created := [] } =
            Result.ok (some t, s1) ∧ s1.eof = none ∧ s1.created = []) ∧
      ∃ rets s1 c s2,
        run demoPackage (NewListTokenSource demoPackage 9 trailingEOF "t")
          [Op.NextToken, Op.NextToken] = Result.ok (rets, s1) ∧
        (nextResults rets).getLast? =
          some (some { mkTok 2 "<EOF>" 3 2 1 3 with tokenType := -1 }) ∧
        ({ mkTok 2 "<EOF>" 3 2 1 3 with tokenType := -1 } : Token).tokenType =
          demoPackage.TokenEOF ∧
        s1.eof = none ∧ s1.created = [] ∧
        NextToken demoPackage s1 = Result.ok (some c.result, s2) ∧
        c.factory = s1.Factory ∧ s2.created = [c] ∧ s2.eof = some c.result) ∧
    (run demoPackage (NewListTokenSource demoPackage 9 trailingEOF "t")
        [Op.NextToken, Op.NextToken, Op.NextToken]).map
        (fun r => ((nextResults r.1).map fun t => t.map fun e => (e.ref, e.tokenType),
          r.2.eof.map fun e => e.ref)) =
      Result.ok ([some (1, 1), some (2, -1), some (100, -1)], some 100) :=
  ⟨⟨by decide, by decide, by decide⟩,
    trailing_eof_token_not_adopted demoPackage
      { tokens := trailingEOF, eof := none, idx := 1, Name := "t",
        Factory := storingFactory 100, self := 9, created := [] }
      9 trailingEOF "t" [Op.NextToken, Op.NextToken]
      { mkTok 2 "<EOF>" 3 2 1 3 with tokenType := -1 } (by decide) (by decide) (by decide),
    by decide⟩

end Antlr
